import Mathlib

/-!
# Packet chunk model and IPv6 address

A shallow embedding of `inet/common/packet/chunk/FieldsChunk.h`,
`inet/common/packet/chunk/SliceChunk.h` and
`inet/networklayer/contract/ipv6/Ipv6Address.cc`.

* A C++ member function that can throw is a function returning the pair of
  its result (`Except ChunkError _`) and the object state after the call, so
  that what a failed call leaves behind can be stated.
* Bit and byte counts (`b`, `B`) are integers; a byte count compared with a
  bit count is first multiplied by 8.
* `Chunk` is the closed family of the two chunk classes of these headers: a
  `FieldsChunk`, which inherits the flag predicates of the base class, and a
  `SliceChunk`, which overrides them.  A virtual call `chunk->f()` is the
  recursive function `Chunk.f`.
-/

namespace Inet

/-! ## Parts of `Chunk.h` that the two headers rely on -/

/-- Modelled from the spec: the unit type `b` (declared outside these headers)
is a bit count; it is signed, since `-1` is the unset value of a slice's
offset and length. -/
abbrev b := Int

/-- Modelled from the spec: the two fatal error kinds of section 7, raised by
the macros `CHUNK_CHECK_USAGE` and `CHUNK_CHECK_IMPLEMENTATION`, whose
definitions are in `Chunk.h`. -/
inductive ChunkError where
  | UsageError (message : String)
  | ImplementationInconsistency
  deriving DecidableEq, Repr

deriving instance DecidableEq for Except

/-- Modelled from the spec: `CHUNK_CHECK_USAGE(condition, message)` is fatal at
the point of the call when the condition is false. -/
def CHUNK_CHECK_USAGE (condition : Bool) (message : String) : Except ChunkError Unit :=
  if condition then .ok () else .error (.UsageError message)

/-- Modelled from the spec: `CHUNK_CHECK_IMPLEMENTATION(condition)` is fatal
when the internal check fails. -/
def CHUNK_CHECK_IMPLEMENTATION (condition : Bool) : Except ChunkError Unit :=
  if condition then .ok () else .error .ImplementationInconsistency

/-- Modelled from the spec: the flag bit of the mutability axis (`Chunk.h` is
not among the sources); a clear bit is the default, mutable. -/
def CF_IMMUTABLE : Nat := 1

/-- Modelled from the spec: the flag bit of the completeness axis. -/
def CF_INCOMPLETE : Nat := 2

/-- Modelled from the spec: the flag bit of the correctness axis. -/
def CF_INCORRECT : Nat := 4

/-- Modelled from the spec: the flag bit of the representation axis. -/
def CF_IMPROPERLY_REPRESENTED : Nat := 8

namespace ChunkBase

/-- Modelled from the spec: `Chunk::isMutable()` of the base class, one half of
the boolean pair of the mutability axis of the `flags` bitmask. -/
def isMutable (flags : Nat) : Bool := !((flags &&& CF_IMMUTABLE) != 0)

/-- Modelled from the spec: `Chunk::isImmutable()` of the base class. -/
def isImmutable (flags : Nat) : Bool := (flags &&& CF_IMMUTABLE) != 0

/-- Modelled from the spec: `Chunk::isComplete()` of the base class. -/
def isComplete (flags : Nat) : Bool := !((flags &&& CF_INCOMPLETE) != 0)

/-- Modelled from the spec: `Chunk::isIncomplete()` of the base class. -/
def isIncomplete (flags : Nat) : Bool := (flags &&& CF_INCOMPLETE) != 0

/-- Modelled from the spec: `Chunk::isCorrect()` of the base class. -/
def isCorrect (flags : Nat) : Bool := !((flags &&& CF_INCORRECT) != 0)

/-- Modelled from the spec: `Chunk::isIncorrect()` of the base class. -/
def isIncorrect (flags : Nat) : Bool := (flags &&& CF_INCORRECT) != 0

/-- Modelled from the spec: `Chunk::isProperlyRepresented()` of the base class. -/
def isProperlyRepresented (flags : Nat) : Bool := !((flags &&& CF_IMPROPERLY_REPRESENTED) != 0)

/-- Modelled from the spec: `Chunk::isImproperlyRepresented()` of the base class. -/
def isImproperlyRepresented (flags : Nat) : Bool := (flags &&& CF_IMPROPERLY_REPRESENTED) != 0

end ChunkBase

/-! ## FieldsChunk.h -/

/-- The data members of `FieldsChunk`: the inherited `flags`, `chunkLength`, and
`serializedBytes`, a pointer that is `nullptr` (`none`) when no serialized
form is available. -/
structure FieldsChunk where
  flags : Nat
  chunkLength : b
  serializedBytes : Option (List (Fin 256))
  deriving DecidableEq, Repr

namespace FieldsChunk

/-- Modelled from the spec: the constructor `FieldsChunk()`, whose body is in
`FieldsChunk.cc`: a newly built chunk has the default flags (mutable, complete,
correct, properly represented) and no cached serialized form.  The spec does
not fix the initial length, so it is an argument. -/
def new (chunkLength : b) : FieldsChunk :=
  { flags := 0, chunkLength := chunkLength, serializedBytes := none }

/-- Inherited `Chunk::isMutable()`: `FieldsChunk` does not override it. -/
def isMutable (c : FieldsChunk) : Bool := ChunkBase.isMutable c.flags

/-- Inherited `Chunk::isImmutable()`: `FieldsChunk` does not override it. -/
def isImmutable (c : FieldsChunk) : Bool := ChunkBase.isImmutable c.flags

/-- `getSerializedBytes()`. -/
def getSerializedBytes (c : FieldsChunk) : Option (List (Fin 256)) := c.serializedBytes

/-- `setSerializedBytes(bytes)`:
`CHUNK_CHECK_IMPLEMENTATION(B(bytes->size()) == chunkLength); this->serializedBytes = bytes;`
The byte count `B(bytes->size())` is compared with a bit count, hence the
factor 8. -/
def setSerializedBytes (c : FieldsChunk) (bytes : List (Fin 256)) :
    Except ChunkError Unit × FieldsChunk :=
  match CHUNK_CHECK_IMPLEMENTATION (decide (8 * (bytes.length : Int) = c.chunkLength)) with
  | .error e => (.error e, c)
  | .ok () => (.ok (), { c with serializedBytes := some bytes })

/-- Modelled from the spec: `handleChange()` is only declared in
`FieldsChunk.h`, its body is in `FieldsChunk.cc`.  It is the single hook every
setter calls: the change is rejected with a usage failure if the chunk is
immutable, leaving the chunk as it was; otherwise the cached serialized form
is set to absent. -/
def handleChange (c : FieldsChunk) : Except ChunkError Unit × FieldsChunk :=
  match CHUNK_CHECK_USAGE (!c.isImmutable) "chunk is immutable" with
  | .error e => (.error e, c)
  | .ok () => (.ok (), { c with serializedBytes := none })

/-- `getChunkLength()`:
`CHUNK_CHECK_IMPLEMENTATION(chunkLength >= b(0)); return chunkLength;` -/
def getChunkLength (c : FieldsChunk) : Except ChunkError b := do
  CHUNK_CHECK_IMPLEMENTATION (decide (c.chunkLength ≥ 0))
  return c.chunkLength

/-- `setChunkLength(chunkLength)`:
`handleChange(); this->chunkLength = chunkLength;` -/
def setChunkLength (c : FieldsChunk) (chunkLength : b) : Except ChunkError Unit × FieldsChunk :=
  match c.handleChange with
  | (.error e, c1) => (.error e, c1)
  | (.ok (), c1) => (.ok (), { c1 with chunkLength := chunkLength })

/-- `addChunkLength(chunkLength)`:
`handleChange(); this->chunkLength += chunkLength;` -/
def addChunkLength (c : FieldsChunk) (chunkLength : b) : Except ChunkError Unit × FieldsChunk :=
  match c.handleChange with
  | (.error e, c1) => (.error e, c1)
  | (.ok (), c1) => (.ok (), { c1 with chunkLength := c1.chunkLength + chunkLength })

/-- The consistency predicate of the cache: if a cached serialized buffer is
present, its length in bits equals `chunkLength`. -/
def cacheConsistent (c : FieldsChunk) : Bool :=
  match c.serializedBytes with
  | none => true
  | some bytes => decide (8 * (bytes.length : Int) = c.chunkLength)

end FieldsChunk

/-- The state-changing member functions of `FieldsChunk.h`, with their arguments. -/
inductive FieldsOp where
  | setSerializedBytes (bytes : List (Fin 256))
  | setChunkLength (chunkLength : b)
  | addChunkLength (chunkLength : b)
  deriving DecidableEq, Repr

namespace FieldsChunk

/-- One call of a state-changing member function. -/
def step (c : FieldsChunk) : FieldsOp → Except ChunkError Unit × FieldsChunk
  | .setSerializedBytes bytes => c.setSerializedBytes bytes
  | .setChunkLength n => c.setChunkLength n
  | .addChunkLength n => c.addChunkLength n

/-- A sequence of calls, in order; the first failing call ends the sequence,
as an exception that is not caught does. -/
def run (c : FieldsChunk) : List FieldsOp → Except ChunkError Unit × FieldsChunk
  | [] => (.ok (), c)
  | op :: ops =>
    match c.step op with
    | (.error e, c1) => (.error e, c1)
    | (.ok (), c1) => c1.run ops

end FieldsChunk

/-- The chunk family: the target of a slice is any chunk, a slice included. -/
inductive Chunk where
  | fields (c : FieldsChunk) : Chunk
  | slice (flags : Nat) (chunk : Chunk) (offset : b) (length : b) : Chunk
  deriving DecidableEq, Repr

/-- The data members of `SliceChunk`: the inherited `flags`, the sliced `chunk`,
`offset` and `length` (both `-1` while not yet specified).  The target
pointer is taken to be set: every flag function dereferences it. -/
structure SliceChunk where
  flags : Nat
  chunk : Chunk
  offset : b
  length : b
  deriving DecidableEq, Repr

namespace Chunk

/-- Virtual `isMutable()`: the base body for a `FieldsChunk`, the override of
`SliceChunk.h` for a slice. -/
def isMutable : Chunk → Bool
  | fields c => ChunkBase.isMutable c.flags
  | slice flags chunk _ _ => ChunkBase.isMutable flags || chunk.isMutable

/-- Virtual `isImmutable()`. -/
def isImmutable : Chunk → Bool
  | fields c => ChunkBase.isImmutable c.flags
  | slice flags chunk _ _ => ChunkBase.isImmutable flags && chunk.isImmutable

/-- Virtual `isComplete()`. -/
def isComplete : Chunk → Bool
  | fields c => ChunkBase.isComplete c.flags
  | slice flags chunk _ _ => ChunkBase.isComplete flags && chunk.isComplete

/-- Virtual `isIncomplete()`. -/
def isIncomplete : Chunk → Bool
  | fields c => ChunkBase.isIncomplete c.flags
  | slice flags chunk _ _ => ChunkBase.isIncomplete flags || chunk.isIncomplete

/-- Virtual `isCorrect()`. -/
def isCorrect : Chunk → Bool
  | fields c => ChunkBase.isCorrect c.flags
  | slice flags chunk _ _ => ChunkBase.isCorrect flags && chunk.isCorrect

/-- Virtual `isIncorrect()`. -/
def isIncorrect : Chunk → Bool
  | fields c => ChunkBase.isIncorrect c.flags
  | slice flags chunk _ _ => ChunkBase.isIncorrect flags || chunk.isIncorrect

/-- Virtual `isProperlyRepresented()`. -/
def isProperlyRepresented : Chunk → Bool
  | fields c => ChunkBase.isProperlyRepresented c.flags
  | slice flags chunk _ _ =>
    ChunkBase.isProperlyRepresented flags && chunk.isProperlyRepresented

/-- Virtual `isImproperlyRepresented()`. -/
def isImproperlyRepresented : Chunk → Bool
  | fields c => ChunkBase.isImproperlyRepresented c.flags
  | slice flags chunk _ _ =>
    ChunkBase.isImproperlyRepresented flags || chunk.isImproperlyRepresented

end Chunk

namespace SliceChunk

/-- A slice seen as a member of the chunk family. -/
def toChunk (s : SliceChunk) : Chunk := Chunk.slice s.flags s.chunk s.offset s.length

/-- `getChunk()`. -/
def getChunk (s : SliceChunk) : Chunk := s.chunk

/-- `getOffset()`. -/
def getOffset (s : SliceChunk) : b := s.offset

/-- `getLength()`. -/
def getLength (s : SliceChunk) : b := s.length

/-- `isMutable()`: `Chunk::isMutable() || chunk->isMutable()`. -/
def isMutable (s : SliceChunk) : Bool := ChunkBase.isMutable s.flags || s.chunk.isMutable

/-- `isImmutable()`: `Chunk::isImmutable() && chunk->isImmutable()`. -/
def isImmutable (s : SliceChunk) : Bool := ChunkBase.isImmutable s.flags && s.chunk.isImmutable

/-- `isComplete()`: `Chunk::isComplete() && chunk->isComplete()`. -/
def isComplete (s : SliceChunk) : Bool := ChunkBase.isComplete s.flags && s.chunk.isComplete

/-- `isIncomplete()`: `Chunk::isIncomplete() || chunk->isIncomplete()`. -/
def isIncomplete (s : SliceChunk) : Bool :=
  ChunkBase.isIncomplete s.flags || s.chunk.isIncomplete

/-- `isCorrect()`: `Chunk::isCorrect() && chunk->isCorrect()`. -/
def isCorrect (s : SliceChunk) : Bool := ChunkBase.isCorrect s.flags && s.chunk.isCorrect

/-- `isIncorrect()`: `Chunk::isIncorrect() || chunk->isIncorrect()`. -/
def isIncorrect (s : SliceChunk) : Bool := ChunkBase.isIncorrect s.flags || s.chunk.isIncorrect

/-- `isProperlyRepresented()`. -/
def isProperlyRepresented (s : SliceChunk) : Bool :=
  ChunkBase.isProperlyRepresented s.flags && s.chunk.isProperlyRepresented

/-- `isImproperlyRepresented()`. -/
def isImproperlyRepresented (s : SliceChunk) : Bool :=
  ChunkBase.isImproperlyRepresented s.flags || s.chunk.isImproperlyRepresented

/-- `setChunk(chunk)`:
`CHUNK_CHECK_USAGE(chunk->isImmutable(), "chunk is mutable"); this->chunk = chunk;` -/
def setChunk (s : SliceChunk) (chunk : Chunk) : Except ChunkError Unit × SliceChunk :=
  match CHUNK_CHECK_USAGE chunk.isImmutable "chunk is mutable" with
  | .error e => (.error e, s)
  | .ok () => (.ok (), { s with chunk := chunk })

/-- `getChunkLength()`:
`CHUNK_CHECK_IMPLEMENTATION(length >= b(0)); return length;` -/
def getChunkLength (s : SliceChunk) : Except ChunkError b := do
  CHUNK_CHECK_IMPLEMENTATION (decide (s.length ≥ 0))
  return s.length

/-- Modelled from the spec: `canInsertAtFront(chunk)` is only declared in
`SliceChunk.h`, its body is in `SliceChunk.cc`.  Section 4.3: always `false`. -/
def canInsertAtFront (_s : SliceChunk) (_chunk : Chunk) : Bool := false

/-- Modelled from the spec: `canInsertAtBack(chunk)` is only declared in
`SliceChunk.h`, its body is in `SliceChunk.cc`.  Section 4.3: always `false`. -/
def canInsertAtBack (_s : SliceChunk) (_chunk : Chunk) : Bool := false

/-- `canRemoveAtFront(length)`: the inline body is `return false`. -/
def canRemoveAtFront (_s : SliceChunk) (_length : b) : Bool := false

/-- `canRemoveAtBack(length)`: the inline body is `return false`. -/
def canRemoveAtBack (_s : SliceChunk) (_length : b) : Bool := false

end SliceChunk

/-! ## Ipv6Address.cc: masks, prefixes, scopes

The four words `d[0..3]` of an address are natural numbers below `2^32`
(`Ipv6Address.InRange`); every `uint32_t` operation that can leave that range
is reduced modulo `2^32`.  `ASSERT` and `throw cRuntimeError` end the call
without a result. -/

/-- `LINK_LOCAL_PREFIX`. -/
def LINK_LOCAL_PREFIX : Nat := 0xFE800000

/-- `SITE_LOCAL_PREFIX`. -/
def SITE_LOCAL_PREFIX : Nat := 0xFEC00000

/-- `MULTICAST_PREFIX`. -/
def MULTICAST_PREFIX : Nat := 0xFF000000

/-- `LINK_LOCAL_MASK`. -/
def LINK_LOCAL_MASK : Nat := 0xFFC00000

/-- `SITE_LOCAL_MASK`. -/
def SITE_LOCAL_MASK : Nat := 0xFFC00000

/-- `MULTICAST_MASK`. -/
def MULTICAST_MASK : Nat := 0xFF000000

/-- The enumeration `Ipv6Address::Scope`, with the enumerators that
`getScope` and `scopeName` use. -/
inductive Scope where
  | UNSPECIFIED
  | LOOPBACK
  | MULTICAST
  | LINK
  | SITE
  | GLOBAL
  deriving DecidableEq, Repr

/-- The exception `cRuntimeError`; its message text is not modelled. -/
inductive cRuntimeError where
  | raised
  deriving DecidableEq, Repr

/-- The data member `uint32_t d[4]` of `Ipv6Address`; also used for the array
`uint32_t mask[4]`. -/
structure Ipv6Address where
  d0 : Nat
  d1 : Nat
  d2 : Nat
  d3 : Nat
  deriving DecidableEq, Repr

/-- The complement `~x` of a `uint32_t`. -/
def not32 (x : Nat) : Nat := 0xFFFFFFFF ^^^ x

/-- The shift `0xFFFFFFFFU << n` in `uint32_t`. -/
def shl32ones (n : Nat) : Nat := (0xFFFFFFFF <<< n) % 2 ^ 32

namespace Ipv6Address

/-- All four words are 32-bit values. -/
def InRange (a : Ipv6Address) : Prop :=
  a.d0 < 2 ^ 32 ∧ a.d1 < 2 ^ 32 ∧ a.d2 < 2 ^ 32 ∧ a.d3 < 2 ^ 32

instance (a : Ipv6Address) : Decidable a.InRange := by
  unfold InRange
  infer_instance

/-- Word `k` of the address, `d[k]`. -/
def word (a : Ipv6Address) (k : Nat) : Nat :=
  match k with
  | 0 => a.d0
  | 1 => a.d1
  | 2 => a.d2
  | _ => a.d3

/-- Bit `i` of the address, counted from the most significant bit of `d[0]`
(bit 0) to the least significant bit of `d[3]` (bit 127). -/
def bit (a : Ipv6Address) (i : Nat) : Bool := (a.word (i / 32)).testBit (31 - i % 32)

/-- The address read as one 128-bit big-endian number, `d[0]` most significant. -/
def toNat (a : Ipv6Address) : Nat :=
  a.d0 * 2 ^ 96 + a.d1 * 2 ^ 64 + a.d2 * 2 ^ 32 + a.d3

/-- Word-wise OR of two addresses. -/
def wordOr (x y : Ipv6Address) : Ipv6Address :=
  ⟨x.d0 ||| y.d0, x.d1 ||| y.d1, x.d2 ||| y.d2, x.d3 ||| y.d3⟩

/-- Word-wise AND of two addresses. -/
def wordAnd (x y : Ipv6Address) : Ipv6Address :=
  ⟨x.d0 &&& y.d0, x.d1 &&& y.d1, x.d2 &&& y.d2, x.d3 &&& y.d3⟩

/-- Word-wise complement of an address. -/
def wordNot (x : Ipv6Address) : Ipv6Address :=
  ⟨not32 x.d0, not32 x.d1, not32 x.d2, not32 x.d3⟩

/-- The all-zero address. -/
def zero : Ipv6Address := ⟨0, 0, 0, 0⟩

/-- The 32-bit word whose `n` most significant bits are 1 and whose other bits
are 0; all ones for `n` of 32 or more. -/
def hiOnes (n : Nat) : Nat := 2 ^ 32 - 2 ^ (32 - n)

/-- `constructMask(prefixLength, mask)`: `none` when the `ASSERT` on the range
of `prefixLength` fails, otherwise the four mask words. -/
def constructMask (prefixLength : Int) : Option Ipv6Address :=
  if ¬ (prefixLength ≥ 0 ∧ prefixLength ≤ 128) then none
  else if prefixLength = 0 then
    some ⟨0x00000000, 0x00000000, 0x00000000, 0x00000000⟩
  else if prefixLength ≤ 32 then
    let num_of_shifts := 32 - prefixLength
    some ⟨shl32ones num_of_shifts.toNat, 0x00000000, 0x00000000, 0x00000000⟩
  else if prefixLength ≤ 64 then
    let num_of_shifts := 64 - prefixLength
    some ⟨0xFFFFFFFF, shl32ones num_of_shifts.toNat, 0x00000000, 0x00000000⟩
  else if prefixLength ≤ 96 then
    let num_of_shifts := 96 - prefixLength
    some ⟨0xFFFFFFFF, 0xFFFFFFFF, shl32ones num_of_shifts.toNat, 0x00000000⟩
  else
    let num_of_shifts := 128 - prefixLength
    some ⟨0xFFFFFFFF, 0xFFFFFFFF, 0xFFFFFFFF, shl32ones num_of_shifts.toNat⟩

/-- `getPrefix(prefixLength)`. -/
def getPrefix (a : Ipv6Address) (prefixLength : Int) : Option Ipv6Address := do
  let mask ← constructMask prefixLength
  return ⟨a.d0 &&& mask.d0, a.d1 &&& mask.d1, a.d2 &&& mask.d2, a.d3 &&& mask.d3⟩

/-- `getSuffix(prefixLength)`. -/
def getSuffix (a : Ipv6Address) (prefixLength : Int) : Option Ipv6Address := do
  let mask ← constructMask prefixLength
  return ⟨a.d0 &&& not32 mask.d0, a.d1 &&& not32 mask.d1, a.d2 &&& not32 mask.d2,
    a.d3 &&& not32 mask.d3⟩

/-- `setPrefix(fromAddr, prefixLength)`: the address after the call. -/
def setPrefix (a : Ipv6Address) (fromAddr : Ipv6Address) (prefixLength : Int) :
    Option Ipv6Address := do
  let mask ← constructMask prefixLength
  return ⟨(a.d0 &&& not32 mask.d0) ||| (fromAddr.d0 &&& mask.d0),
    (a.d1 &&& not32 mask.d1) ||| (fromAddr.d1 &&& mask.d1),
    (a.d2 &&& not32 mask.d2) ||| (fromAddr.d2 &&& mask.d2),
    (a.d3 &&& not32 mask.d3) ||| (fromAddr.d3 &&& mask.d3)⟩

/-- `setSuffix(fromAddr, prefixLength)`: the address after the call. -/
def setSuffix (a : Ipv6Address) (fromAddr : Ipv6Address) (prefixLength : Int) :
    Option Ipv6Address := do
  let mask ← constructMask prefixLength
  return ⟨(a.d0 &&& mask.d0) ||| (fromAddr.d0 &&& not32 mask.d0),
    (a.d1 &&& mask.d1) ||| (fromAddr.d1 &&& not32 mask.d1),
    (a.d2 &&& mask.d2) ||| (fromAddr.d2 &&& not32 mask.d2),
    (a.d3 &&& mask.d3) ||| (fromAddr.d3 &&& not32 mask.d3)⟩

/-- `matches(prefix, prefixLength)`; the argument `prefix` is `pfx` here. -/
def «matches» (a : Ipv6Address) (pfx : Ipv6Address) (prefixLength : Int) : Option Bool := do
  let mask ← constructMask prefixLength
  return ((((a.d0 ^^^ pfx.d0) &&& mask.d0) ||| ((a.d1 ^^^ pfx.d1) &&& mask.d1)
    ||| ((a.d2 ^^^ pfx.d2) &&& mask.d2) ||| ((a.d3 ^^^ pfx.d3) &&& mask.d3)) == 0)

/-- `getScope()`. -/
def getScope (a : Ipv6Address) : Scope :=
  if (a.d0 &&& LINK_LOCAL_MASK) = LINK_LOCAL_PREFIX then Scope.LINK
  else if (a.d0 &&& SITE_LOCAL_MASK) = SITE_LOCAL_PREFIX then Scope.SITE
  else if (a.d0 &&& MULTICAST_MASK) = MULTICAST_PREFIX then Scope.MULTICAST
  else if a.d0 = 0x00000000 ∧ a.d1 = 0x00000000 ∧ a.d2 = 0x00000000 then
    if a.d3 = 0x00000000 then Scope.UNSPECIFIED
    else if a.d3 = 0x00000001 then Scope.LOOPBACK
    else Scope.GLOBAL
  else Scope.GLOBAL

/-- `getMulticastScope()`. -/
def getMulticastScope (a : Ipv6Address) : Except cRuntimeError Int :=
  if (a.d0 &&& MULTICAST_MASK) ≠ MULTICAST_PREFIX then .error .raised
  else .ok (((a.d0 >>> 16) &&& 0x0F : Nat) : Int)

end Ipv6Address

/-! ## Ipv6Address.cc: text form

A C string is the list of its characters before the terminating NUL; a
`const char *` into it is the list of the characters from that position on, so
that two pointers into one string are equal exactly when the lists are. -/

/-- The C library predicate `isspace` in the "C" locale: space, and the
characters 9 to 13 (`\t \n \v \f \r`). -/
def isspace (c : Char) : Bool := c.toNat = 32 || (9 ≤ c.toNat && c.toNat ≤ 13)

/-- The value of a character as a digit for `strtoul`: `0`-`9`, then the
letters of either case as 10 to 35. -/
def digitValue (c : Char) : Option Nat :=
  if 48 ≤ c.toNat ∧ c.toNat ≤ 57 then some (c.toNat - 48)
  else if 97 ≤ c.toNat ∧ c.toNat ≤ 122 then some (c.toNat - 97 + 10)
  else if 65 ≤ c.toNat ∧ c.toNat ≤ 90 then some (c.toNat - 65 + 10)
  else none

/-- Whether a character is a digit of the given base. -/
def isDigitOf (base : Nat) (c : Char) : Bool :=
  match digitValue c with
  | some d => d < base
  | none => false

/-- The digit loop of `strtoul`: the number read so far and the position of the
first character that is not a digit of the base. -/
def strtoulDigits (base : Nat) : List Char → Nat → Nat × List Char
  | [], acc => (acc, [])
  | c :: cs, acc =>
    if isDigitOf base c then strtoulDigits base cs (acc * base + (digitValue c).getD 0)
    else (acc, c :: cs)

/-- `ULONG_MAX` of a platform with 64-bit `unsigned long`. -/
def ULONG_MAX : Nat := 2 ^ 64 - 1

/-- The optional sign of `strtoul`: whether it is `-`, and the text after it. -/
def strtoulSign (s : List Char) : Bool × List Char :=
  match s with
  | c :: t => if c = '-' then (true, t) else if c = '+' then (false, t) else (false, c :: t)
  | [] => (false, [])

/-- The optional `0x` or `0X` of `strtoul` in base 16: it is skipped when a
hexadecimal digit follows it. -/
def strtoulHexPrefix (base : Nat) (s : List Char) : List Char :=
  match s with
  | z :: x :: h :: t =>
    if base = 16 ∧ z = '0' ∧ (x = 'x' ∨ x = 'X') ∧ isDigitOf 16 h then h :: t
    else z :: x :: h :: t
  | _ => s

/-- The part of the text where the digits of `strtoul` start: after leading
white space, an optional sign, and for base 16 an optional `0x` or `0X`.  The
flag tells whether the sign was `-`. -/
def strtoulSubject (s : List Char) (base : Nat) : Bool × List Char :=
  let signed := strtoulSign (s.dropWhile isspace)
  (signed.1, strtoulHexPrefix base signed.2)

/-- The C library function `strtoul(s, &e, base)` for base 10 or 16: the
converted value and the end position `e`.  Without a digit nothing is
converted: the value is 0 and `e` is `s`.  A value too large for
`unsigned long` gives `ULONG_MAX`; after a `-` the value is negated in
`unsigned long`. -/
def strtoul (s : List Char) (base : Nat) : Nat × List Char :=
  let subject := strtoulSubject s base
  match subject.2 with
  | [] => (0, s)
  | c :: cs =>
    if isDigitOf base c then
      let r := strtoulDigits base (c :: cs) 0
      (if r.1 > ULONG_MAX then ULONG_MAX
       else if subject.1 then (2 ^ 64 - r.1) % 2 ^ 64 else r.1, r.2)
    else (0, s)

/-- The conversion of an `unsigned long` to `int` (32 bits, two's complement). -/
def toInt32 (v : Nat) : Int :=
  if v % 2 ^ 32 < 2 ^ 31 then ((v % 2 ^ 32 : Nat) : Int) else ((v % 2 ^ 32 : Nat) : Int) - 2 ^ 32

/-- The character of a hexadecimal digit, lower case, as `std::hex` prints it. -/
def hexDigit (d : Nat) : Char := if d < 10 then Char.ofNat (48 + d) else Char.ofNat (87 + d)

/-- The digits of `n` in base 16, most significant first, in front of `acc`;
the first argument bounds the number of digits. -/
def toHexAux : Nat → Nat → List Char → List Char
  | 0, _, acc => acc
  | fuel + 1, n, acc =>
    if n < 16 then hexDigit n :: acc else toHexAux fuel (n / 16) (hexDigit (n % 16) :: acc)

/-- The output of `os << std::hex << n` for a `uint16_t` value `n`: at most 4
hexadecimal digits, without leading zeros. -/
def toHex (n : Nat) : List Char := toHexAux 4 n []

/-- The loop of `parseGroups`, entered at `while (1)` with the position `s` and
the groups stored so far (`k` is their number).  The first argument bounds the
number of passes; the loop itself ends at `k == 8`. -/
def parseGroupsLoop : Nat → List Char → List Nat → List Nat × List Char
  | 0, s, groups => (groups, s)
  | fuel + 1, s, groups =>
    let r := strtoul s 16
    if r.2 = s then (groups, if groups.length ≠ 0 then ':' :: s else s)
    else if r.1 > 0xffff then (groups, s)
    else
      let groups1 := groups ++ [r.1]
      if r.2.head? ≠ some ':' ∨ groups1.length = 8 then (groups1, r.2)
      else parseGroupsLoop fuel r.2.tail groups1

/-- `parseGroups(s, groups)`: the groups stored (their number is the returned
`k`) and the new position `s`. -/
def parseGroups (s : List Char) : List Nat × List Char := parseGroupsLoop 8 s []

/-- A text that allows the conversion before it to stop: the end of the
string, or a colon. -/
def IsStop (rest : List Char) : Prop := rest = [] ∨ rest.head? = some ':'

/-- What `parseGroups` takes for a group, with its value: a non-empty text that
`strtoul` converts up to its end, in base 16, to a value of at most `0xffff`.
This is wider than a hexadecimal group (`IsHexGroup`): besides hexadecimal
digits the text may hold what `strtoul` skips, leading white space, a sign,
`0x`. -/
def IsGroupText (t : List Char) (v : Nat) : Prop :=
  t ≠ [] ∧ strtoul t 16 = (v, []) ∧ v ≤ 0xffff

instance (t : List Char) (v : Nat) : Decidable (IsGroupText t v) := by
  unfold IsGroupText
  infer_instance

/-- Texts and values are group texts with their values, one by one. -/
def AreGroupTexts : List (List Char) → List Nat → Prop
  | [], [] => True
  | t :: ts, v :: vs => IsGroupText t v ∧ AreGroupTexts ts vs
  | _, _ => False

/-- The number that a text of hexadecimal digits writes in base 16. -/
def hexValue (t : List Char) : Nat :=
  t.foldl (fun acc c => acc * 16 + (digitValue c).getD 0) 0

/-- A hexadecimal group with its value: one or more hexadecimal digits, and
nothing else, that write a number of at most `0xffff`. -/
def IsHexGroup (t : List Char) (v : Nat) : Prop :=
  t ≠ [] ∧ (∀ c ∈ t, isDigitOf 16 c = true) ∧ hexValue t = v ∧ v ≤ 0xffff

instance (t : List Char) (v : Nat) : Decidable (IsHexGroup t v) := by
  unfold IsHexGroup
  infer_instance

/-- Texts and values are hexadecimal groups with their values, one by one. -/
def AreHexGroups : List (List Char) → List Nat → Prop
  | [], [] => True
  | t :: ts, v :: vs => IsHexGroup t v ∧ AreHexGroups ts vs
  | _, _ => False

/-- A text made of hexadecimal digits and colons only. -/
def IsPlainText (text : List Char) : Prop :=
  ∀ c ∈ text, isDigitOf 16 c = true ∨ c = ':'

instance (text : List Char) : Decidable (IsPlainText text) := by
  unfold IsPlainText
  infer_instance

/-- Groups of 16 bits read as one number, the first group most significant. -/
def groupsValue (gs : List Nat) : Nat := gs.foldl (fun acc g => acc * 2 ^ 16 + g) 0

/-- The texts one after the other, each with a colon in front. -/
def sepTexts : List (List Char) → List Char
  | [] => []
  | t :: ts => ':' :: t ++ sepTexts ts

/-- The texts one after the other, with a colon between two of them. -/
def joinTexts : List (List Char) → List Char
  | [] => []
  | t :: ts => t ++ sepTexts ts

/-- The texts that `std::hex` prints for the groups `i`, `i + 1`, ... (`count`
of them). -/
def hexTexts (groups : List Nat) (i count : Nat) : List (List Char) :=
  (List.range' i count).map (fun k => toHex (groups.getD k 0))

/-- The groups `i`, `i + 1`, ... (`count` of them). -/
def groupVals (groups : List Nat) (i count : Nat) : List Nat :=
  (List.range' i count).map (fun k => groups.getD k 0)

/-- What the loop of `findGap` keeps true before pass `i`: `start` and `end`
are both 0 or delimit zero groups below `i`, and a zero sequence that began
at `beg` has lasted up to `i`. -/
def GapInv (groups : List Nat) (i : Nat) (st : Int × Int × Int) : Prop :=
  ((st.1 = 0 ∧ st.2.1 = 0) ∨
    (0 ≤ st.1 ∧ st.1 < st.2.1 ∧ st.2.1 ≤ (i : Int) ∧
      ∀ k : Nat, st.1 ≤ (k : Int) → (k : Int) < st.2.1 → groups.getD k 0 = 0)) ∧
  (st.2.2 = -1 ∨
    (0 ≤ st.2.2 ∧ st.2.2 ≤ (i : Int) ∧
      ∀ k : Nat, st.2.2 ≤ (k : Int) → k < i → groups.getD k 0 = 0))

/-- The text `<unspec>`. -/
def unspecText : List Char := ['<', 'u', 'n', 's', 'p', 'e', 'c', '>']

namespace Ipv6Address

/-- Modelled from the spec: `isUnspecified()` is defined in `Ipv6Address.h`,
which is not among the sources; the unspecified address is the all-zero
address, the one `UNSPECIFIED_ADDRESS("::0")` and `getScope` name so. -/
def isUnspecified (a : Ipv6Address) : Bool := (a.d0 ||| a.d1 ||| a.d2 ||| a.d3) == 0

/-- The merge loop of `doTryParse`: `groups[i]` for `i` from `numGroups` to 7
is `0` when `j = i - 8 + numSuffixGroups` is negative and `suffixGroups[j]`
otherwise. -/
def mergeGroups (groups suffixGroups : List Nat) : List Nat :=
  groups ++ (List.range' groups.length (8 - groups.length)).map (fun (i : Nat) =>
    let j : Int := (i : Int) - 8 + (suffixGroups.length : Int)
    if j < 0 then 0 else suffixGroups.getD j.toNat 0)

/-- The last loop of `doTryParse`: `d[i] = ((uint32_t)(groups[2 * i]) << 16) + groups[2 * i + 1]`. -/
def ofGroups (groups : List Nat) : Ipv6Address :=
  ⟨((groups.getD 0 0 <<< 16) + groups.getD 1 0) % 2 ^ 32,
   ((groups.getD 2 0 <<< 16) + groups.getD 3 0) % 2 ^ 32,
   ((groups.getD 4 0 <<< 16) + groups.getD 5 0) % 2 ^ 32,
   ((groups.getD 6 0 <<< 16) + groups.getD 7 0) % 2 ^ 32⟩

/-- `doTryParse(addr)`: the returned flag, the address afterwards, and the new
position `addr`. -/
def doTryParse (a : Ipv6Address) (addr : List Char) : Bool × Ipv6Address × List Char :=
  if addr = unspecText then (true, ⟨0, 0, 0, 0⟩, addr.drop 8)
  else
    let r := parseGroups addr
    match r.2 with
    | ':' :: ':' :: addr2 =>
      let r2 := parseGroups addr2
      if r.1.length + r2.1.length > 8 then (false, a, r2.2)
      else (true, ofGroups (mergeGroups r.1 r2.1), r2.2)
    | _ =>
      if r.1.length ≠ 8 then (false, a, r.2)
      else (true, ofGroups r.1, r.2)

/-- `tryParse(addr)`: the returned flag and the address afterwards; `none` is
the null pointer. -/
def tryParse (a : Ipv6Address) (addr : Option (List Char)) : Bool × Ipv6Address :=
  match addr with
  | none => (false, a)
  | some addr =>
    let r := doTryParse a addr
    if !r.1 then (false, r.2.1)
    else if r.2.2 ≠ [] then (false, r.2.1)
    else (true, r.2.1)

/-- `tryParseAddrWithPrefix(addr, prefixLen)`: the returned flag, the address
afterwards and the value of `prefixLen` afterwards. -/
def tryParseAddrWithPrefix (a : Ipv6Address) (addr : Option (List Char)) (prefixLen : Int) :
    Bool × Ipv6Address × Int :=
  match addr with
  | none => (false, a, prefixLen)
  | some addr =>
    let r := doTryParse a addr
    if !r.1 then (false, r.2.1, prefixLen)
    else
      match r.2.2 with
      | '/' :: addr1 =>
        let e := strtoul addr1 10
        let prefixLen1 := toInt32 e.1
        if e.2 = addr1 then (false, r.2.1, prefixLen1)
        else if e.2 ≠ [] then (false, r.2.1, prefixLen1)
        else if prefixLen1 < 0 ∨ prefixLen1 > 128 then (false, r.2.1, prefixLen1)
        else (true, r.2.1, prefixLen1)
      | _ => (false, r.2.1, prefixLen)

/-- One pass of the loop of `findGap` on the state `(start, end, beg)`. -/
def findGapStep (groups : List Nat) (st : Int × Int × Int) (i : Nat) : Int × Int × Int :=
  if st.2.2 = -1 ∧ groups.getD i 0 = 0 then (st.1, st.2.1, (i : Int))
  else if st.2.2 ≠ -1 ∧ groups.getD i 0 ≠ 0 then
    if (i : Int) - st.2.2 ≥ 2 ∧ (i : Int) - st.2.2 > st.2.1 - st.1 then (st.2.2, (i : Int), -1)
    else (st.1, st.2.1, -1)
  else st

/-- `findGap(groups, start, end)`: the values of `start` and `end` afterwards. -/
def findGap (groups : List Nat) : Int × Int :=
  let st := (List.range 8).foldl (findGapStep groups) (0, 0, -1)
  if st.2.2 ≠ -1 ∧ st.2.2 ≤ 6 ∧ 8 - st.2.2 > st.2.1 - st.1 then (st.2.2, 8)
  else (st.1, st.2.1)

/-- The loop `for (i = first; i < bound; i++) os << (i == first ? "" : ":") << groups[i]`
of `str`, entered at `i` with `count` passes to go. -/
def printGroups (groups : List Nat) (first : Nat) : Nat → Nat → List Char
  | 0, _ => []
  | count + 1, i =>
    (if i = first then [] else [':']) ++ toHex (groups.getD i 0)
      ++ printGroups groups first count (i + 1)

/-- The array `groups` of `str`: the eight 16-bit halves of the four words. -/
def toGroups (a : Ipv6Address) : List Nat :=
  [(a.d0 >>> 16) % 2 ^ 16, (a.d0 &&& 0xffff) % 2 ^ 16, (a.d1 >>> 16) % 2 ^ 16,
   (a.d1 &&& 0xffff) % 2 ^ 16, (a.d2 >>> 16) % 2 ^ 16, (a.d2 &&& 0xffff) % 2 ^ 16,
   (a.d3 >>> 16) % 2 ^ 16, (a.d3 &&& 0xffff) % 2 ^ 16]

/-- `str()`. -/
def str (a : Ipv6Address) : List Char :=
  if a.isUnspecified then unspecText
  else
    let groups := a.toGroups
    let gap := findGap groups
    if gap.1 = 0 ∧ gap.2 = 8 then [':', ':', '0']
    else
      printGroups groups 0 gap.1.toNat 0
        ++ (if gap.1 ≠ gap.2 then [':', ':'] else [])
        ++ printGroups groups gap.2.toNat (8 - gap.2.toNat) gap.2.toNat

end Ipv6Address

/-! ## Complementary flag pairs -/

/-- On every chunk of the family, `isImmutable()` is the negation of `isMutable()`. -/
theorem Chunk.isImmutable_eq_not_isMutable (t : Chunk) : t.isImmutable = !t.isMutable := by
  induction t with
  | fields c => simp [Chunk.isImmutable, Chunk.isMutable, ChunkBase.isImmutable, ChunkBase.isMutable]
  | slice flags chunk offset length ih =>
    simp [Chunk.isImmutable, Chunk.isMutable, ChunkBase.isImmutable, ChunkBase.isMutable, ih]

/-- On every chunk of the family, `isComplete()` is the negation of `isIncomplete()`. -/
theorem Chunk.isComplete_eq_not_isIncomplete (t : Chunk) : t.isComplete = !t.isIncomplete := by
  induction t with
  | fields c => simp [Chunk.isComplete, Chunk.isIncomplete, ChunkBase.isComplete, ChunkBase.isIncomplete]
  | slice flags chunk offset length ih =>
    simp [Chunk.isComplete, Chunk.isIncomplete, ChunkBase.isComplete, ChunkBase.isIncomplete, ih]

/-- On every chunk of the family, `isCorrect()` is the negation of `isIncorrect()`. -/
theorem Chunk.isCorrect_eq_not_isIncorrect (t : Chunk) : t.isCorrect = !t.isIncorrect := by
  induction t with
  | fields c => simp [Chunk.isCorrect, Chunk.isIncorrect, ChunkBase.isCorrect, ChunkBase.isIncorrect]
  | slice flags chunk offset length ih =>
    simp [Chunk.isCorrect, Chunk.isIncorrect, ChunkBase.isCorrect, ChunkBase.isIncorrect, ih]

/-- On every chunk of the family, `isProperlyRepresented()` is the negation of
`isImproperlyRepresented()`. -/
theorem Chunk.isProperlyRepresented_eq_not (t : Chunk) :
    t.isProperlyRepresented = !t.isImproperlyRepresented := by
  induction t with
  | fields c =>
    simp [Chunk.isProperlyRepresented, Chunk.isImproperlyRepresented,
      ChunkBase.isProperlyRepresented, ChunkBase.isImproperlyRepresented]
  | slice flags chunk offset length ih =>
    simp [Chunk.isProperlyRepresented, Chunk.isImproperlyRepresented,
      ChunkBase.isProperlyRepresented, ChunkBase.isImproperlyRepresented, ih]

/-- A slice reached through a base-class pointer answers the flag queries with
the overrides of `SliceChunk`. -/
theorem SliceChunk.toChunk_flags (s : SliceChunk) :
    s.toChunk.isMutable = s.isMutable ∧ s.toChunk.isImmutable = s.isImmutable ∧
    s.toChunk.isComplete = s.isComplete ∧ s.toChunk.isIncomplete = s.isIncomplete ∧
    s.toChunk.isCorrect = s.isCorrect ∧ s.toChunk.isIncorrect = s.isIncorrect ∧
    s.toChunk.isProperlyRepresented = s.isProperlyRepresented ∧
    s.toChunk.isImproperlyRepresented = s.isImproperlyRepresented :=
  ⟨rfl, rfl, rfl, rfl, rfl, rfl, rfl, rfl⟩

/-! ## SliceChunk: derived flags, removal queries, target setter -/

/-- C1: for a slice built from any own flags, target `t`, offset and length, each
of the eight flag queries is the combination of the base-class answer on the
slice's own flags with the answer of `t`: OR for mutable, incomplete, incorrect
and improperly represented, AND for immutable, complete, correct and properly
represented. -/
theorem SliceChunk.derived_flags (flags : Nat) (t : Chunk) (offset length : b) :
    (SliceChunk.mk flags t offset length).isMutable
      = (ChunkBase.isMutable flags || t.isMutable) ∧
    (SliceChunk.mk flags t offset length).isImmutable
      = (ChunkBase.isImmutable flags && t.isImmutable) ∧
    (SliceChunk.mk flags t offset length).isComplete
      = (ChunkBase.isComplete flags && t.isComplete) ∧
    (SliceChunk.mk flags t offset length).isIncomplete
      = (ChunkBase.isIncomplete flags || t.isIncomplete) ∧
    (SliceChunk.mk flags t offset length).isCorrect
      = (ChunkBase.isCorrect flags && t.isCorrect) ∧
    (SliceChunk.mk flags t offset length).isIncorrect
      = (ChunkBase.isIncorrect flags || t.isIncorrect) ∧
    (SliceChunk.mk flags t offset length).isProperlyRepresented
      = (ChunkBase.isProperlyRepresented flags && t.isProperlyRepresented) ∧
    (SliceChunk.mk flags t offset length).isImproperlyRepresented
      = (ChunkBase.isImproperlyRepresented flags || t.isImproperlyRepresented) :=
  ⟨rfl, rfl, rfl, rfl, rfl, rfl, rfl, rfl⟩

/-- C2: whatever the slice and the requested length, `canRemoveAtFront` and
`canRemoveAtBack` answer `false`; so does the slice at offset 100 with length
200 of an immutable chunk of 1000 bits, which itself reports length 200. -/
theorem SliceChunk.canRemove_false :
    (∀ (s : SliceChunk) (length : b),
      s.canRemoveAtFront length = false ∧ s.canRemoveAtBack length = false) ∧
    (∀ length : b,
      (SliceChunk.mk 0 (Chunk.fields ⟨CF_IMMUTABLE, 1000, none⟩) 100 200).canRemoveAtFront length
        = false ∧
      (SliceChunk.mk 0 (Chunk.fields ⟨CF_IMMUTABLE, 1000, none⟩) 100 200).canRemoveAtBack length
        = false) ∧
    (Chunk.fields ⟨CF_IMMUTABLE, 1000, none⟩).isImmutable = true ∧
    (SliceChunk.mk 0 (Chunk.fields ⟨CF_IMMUTABLE, 1000, none⟩) 100 200).getChunkLength
      = .ok 200 :=
  ⟨fun _ _ => ⟨rfl, rfl⟩, fun _ => ⟨rfl, rfl⟩, by decide, by decide⟩

/-- C3: `setChunk(t)` fails exactly when `t.isImmutable()` is false, the failure
is the usage error "chunk is mutable", and the slice is then left as it was
(its target included); when `t` is immutable the call returns normally, the
target read back by `getChunk()` is `t`, and flags, offset and length are
unchanged. -/
theorem SliceChunk.setChunk_spec (s : SliceChunk) (t : Chunk) :
    ((s.setChunk t).1 = .error (.UsageError "chunk is mutable") ↔ t.isImmutable = false) ∧
    ((s.setChunk t).1 = .ok () ↔ t.isImmutable = true) ∧
    (t.isImmutable = false → (s.setChunk t).2 = s) ∧
    (t.isImmutable = true →
      (s.setChunk t).2.getChunk = t ∧ (s.setChunk t).2.getOffset = s.getOffset ∧
      (s.setChunk t).2.getLength = s.getLength ∧ (s.setChunk t).2.flags = s.flags) := by
  cases h : t.isImmutable <;>
    simp [SliceChunk.setChunk, CHUNK_CHECK_USAGE, h, SliceChunk.getChunk,
      SliceChunk.getOffset, SliceChunk.getLength]

/-- Witness for C3: a mutable 64-bit target is refused and the slice keeps its
immutable 1000-bit target; an immutable 64-bit target is accepted. -/
theorem SliceChunk.setChunk_spec_witness :
    ((SliceChunk.mk 0 (Chunk.fields ⟨CF_IMMUTABLE, 1000, none⟩) 100 200).setChunk
        (Chunk.fields ⟨0, 64, none⟩)).2
      = SliceChunk.mk 0 (Chunk.fields ⟨CF_IMMUTABLE, 1000, none⟩) 100 200 ∧
    ((SliceChunk.mk 0 (Chunk.fields ⟨CF_IMMUTABLE, 1000, none⟩) 100 200).setChunk
        (Chunk.fields ⟨CF_IMMUTABLE, 64, none⟩)).2.getChunk
      = Chunk.fields ⟨CF_IMMUTABLE, 64, none⟩ :=
  ⟨(SliceChunk.setChunk_spec (SliceChunk.mk 0 (Chunk.fields ⟨CF_IMMUTABLE, 1000, none⟩) 100 200)
      (Chunk.fields ⟨0, 64, none⟩)).2.2.1 (by decide),
   ((SliceChunk.setChunk_spec (SliceChunk.mk 0 (Chunk.fields ⟨CF_IMMUTABLE, 1000, none⟩) 100 200)
      (Chunk.fields ⟨CF_IMMUTABLE, 64, none⟩)).2.2.2 (by decide)).1⟩

/-! ## FieldsChunk: setters, cache, length -/

/-- The change hook on an immutable chunk: usage failure, chunk as it was. -/
theorem FieldsChunk.handleChange_immutable (c : FieldsChunk) (h : c.isImmutable = true) :
    c.handleChange = (.error (.UsageError "chunk is immutable"), c) := by
  simp [FieldsChunk.handleChange, CHUNK_CHECK_USAGE, h]

/-- The change hook on a mutable chunk: returns normally, cache absent. -/
theorem FieldsChunk.handleChange_mutable (c : FieldsChunk) (h : c.isImmutable = false) :
    c.handleChange = (.ok (), { c with serializedBytes := none }) := by
  simp [FieldsChunk.handleChange, CHUNK_CHECK_USAGE, h]

/-- For a `FieldsChunk`, mutable means not immutable. -/
theorem FieldsChunk.immutable_eq_not_mutable (c : FieldsChunk) :
    c.isImmutable = !c.isMutable := by
  simp [FieldsChunk.isImmutable, FieldsChunk.isMutable, ChunkBase.isImmutable,
    ChunkBase.isMutable]

/-- C4: on an immutable `FieldsChunk`, `setChunkLength(n)` and
`addChunkLength(n)` fail with a usage error for every `n`, and the chunk after
the failed call is the chunk before it: same chunk length, same cached
serialized bytes, same flags. -/
theorem FieldsChunk.immutable_setters_fail (c : FieldsChunk) (n : b)
    (h : c.isImmutable = true) :
    (c.setChunkLength n).1 = .error (.UsageError "chunk is immutable") ∧
    (c.setChunkLength n).2 = c ∧
    (c.setChunkLength n).2.chunkLength = c.chunkLength ∧
    (c.setChunkLength n).2.getSerializedBytes = c.getSerializedBytes ∧
    (c.addChunkLength n).1 = .error (.UsageError "chunk is immutable") ∧
    (c.addChunkLength n).2 = c ∧
    (c.addChunkLength n).2.chunkLength = c.chunkLength ∧
    (c.addChunkLength n).2.getSerializedBytes = c.getSerializedBytes := by
  simp [FieldsChunk.setChunkLength, FieldsChunk.addChunkLength,
    FieldsChunk.handleChange_immutable c h]

/-- Witness for C4: an immutable 64-bit chunk with 8 cached bytes keeps its
length and its cache when `setChunkLength(32)` is attempted. -/
theorem FieldsChunk.immutable_setters_fail_witness :
    (FieldsChunk.mk CF_IMMUTABLE 64 (some [1, 2, 3, 4, 5, 6, 7, 8])).isImmutable = true ∧
    ((FieldsChunk.mk CF_IMMUTABLE 64 (some [1, 2, 3, 4, 5, 6, 7, 8])).setChunkLength 32).2
      = FieldsChunk.mk CF_IMMUTABLE 64 (some [1, 2, 3, 4, 5, 6, 7, 8]) :=
  ⟨by decide,
   (FieldsChunk.immutable_setters_fail
      (FieldsChunk.mk CF_IMMUTABLE 64 (some [1, 2, 3, 4, 5, 6, 7, 8])) 32 (by decide)).2.1⟩

/-- C5: `setSerializedBytes(bytes)` returns normally exactly when 8 times the
byte count of the buffer equals the chunk length; otherwise it fails with the
implementation-inconsistency error and leaves the chunk, its cached buffer
included, as it was; when it returns normally `getSerializedBytes()` is the
supplied buffer and chunk length and flags are unchanged. -/
theorem FieldsChunk.setSerializedBytes_spec (c : FieldsChunk) (bytes : List (Fin 256)) :
    ((c.setSerializedBytes bytes).1 = .ok () ↔ 8 * (bytes.length : Int) = c.chunkLength) ∧
    (8 * (bytes.length : Int) ≠ c.chunkLength →
      (c.setSerializedBytes bytes).1 = .error .ImplementationInconsistency ∧
      (c.setSerializedBytes bytes).2 = c ∧
      (c.setSerializedBytes bytes).2.getSerializedBytes = c.getSerializedBytes) ∧
    (8 * (bytes.length : Int) = c.chunkLength →
      (c.setSerializedBytes bytes).2.getSerializedBytes = some bytes ∧
      (c.setSerializedBytes bytes).2.chunkLength = c.chunkLength ∧
      (c.setSerializedBytes bytes).2.flags = c.flags) := by
  by_cases h : 8 * (bytes.length : Int) = c.chunkLength <;>
    simp [FieldsChunk.setSerializedBytes, CHUNK_CHECK_IMPLEMENTATION, h,
      FieldsChunk.getSerializedBytes]

/-- Witness for C5: on a 64-bit chunk a buffer of 3 bytes is refused and the
earlier cache stays; a buffer of 8 bytes is stored. -/
theorem FieldsChunk.setSerializedBytes_spec_witness :
    ((FieldsChunk.mk 0 64 (some [8, 7, 6, 5, 4, 3, 2, 1])).setSerializedBytes [1, 2, 3]).2
      = FieldsChunk.mk 0 64 (some [8, 7, 6, 5, 4, 3, 2, 1]) ∧
    ((FieldsChunk.mk 0 64 none).setSerializedBytes
        [1, 2, 3, 4, 5, 6, 7, 8]).2.getSerializedBytes
      = some [1, 2, 3, 4, 5, 6, 7, 8] :=
  ⟨((FieldsChunk.setSerializedBytes_spec (FieldsChunk.mk 0 64 (some [8, 7, 6, 5, 4, 3, 2, 1]))
      [1, 2, 3]).2.1 (by decide)).2.1,
   ((FieldsChunk.setSerializedBytes_spec (FieldsChunk.mk 0 64 none)
      [1, 2, 3, 4, 5, 6, 7, 8]).2.2 (by decide)).1⟩

/-- C6: on a mutable `FieldsChunk`, with a cached serialized form or without,
`setChunkLength(n)` and `addChunkLength(n)` return normally, afterwards
`getSerializedBytes()` is null, and the chunk length is `n`, respectively the
old length plus `n`. -/
theorem FieldsChunk.mutable_setters_invalidate (c : FieldsChunk) (n : b)
    (h : c.isMutable = true) :
    (c.setChunkLength n).1 = .ok () ∧
    (c.setChunkLength n).2.getSerializedBytes = none ∧
    (c.setChunkLength n).2.chunkLength = n ∧
    (c.addChunkLength n).1 = .ok () ∧
    (c.addChunkLength n).2.getSerializedBytes = none ∧
    (c.addChunkLength n).2.chunkLength = c.chunkLength + n := by
  have h1 : c.isImmutable = false := by simp [FieldsChunk.immutable_eq_not_mutable, h]
  simp [FieldsChunk.setChunkLength, FieldsChunk.addChunkLength,
    FieldsChunk.handleChange_mutable c h1, FieldsChunk.getSerializedBytes]

/-- Witness for C6: a mutable 64-bit chunk holding 8 cached bytes has no cache
after `addChunkLength(8)` and has length 72. -/
theorem FieldsChunk.mutable_setters_invalidate_witness :
    (FieldsChunk.mk 0 64 (some [1, 2, 3, 4, 5, 6, 7, 8])).isMutable = true ∧
    ((FieldsChunk.mk 0 64 (some [1, 2, 3, 4, 5, 6, 7, 8])).addChunkLength 8).2.getSerializedBytes
      = none ∧
    ((FieldsChunk.mk 0 64 (some [1, 2, 3, 4, 5, 6, 7, 8])).addChunkLength 8).2.chunkLength
      = 64 + 8 :=
  ⟨by decide,
   (FieldsChunk.mutable_setters_invalidate
      (FieldsChunk.mk 0 64 (some [1, 2, 3, 4, 5, 6, 7, 8])) 8 (by decide)).2.2.2.2.1,
   (FieldsChunk.mutable_setters_invalidate
      (FieldsChunk.mk 0 64 (some [1, 2, 3, 4, 5, 6, 7, 8])) 8 (by decide)).2.2.2.2.2⟩

/-- A chunk without cached serialized form satisfies the cache predicate. -/
theorem FieldsChunk.cacheConsistent_of_none (c : FieldsChunk) (h : c.serializedBytes = none) :
    c.cacheConsistent = true := by
  simp [FieldsChunk.cacheConsistent, h]

/-- One call, failed or not, keeps the cache predicate. -/
theorem FieldsChunk.step_cacheConsistent (c : FieldsChunk) (op : FieldsOp)
    (h : c.cacheConsistent = true) : (c.step op).2.cacheConsistent = true := by
  cases op with
  | setSerializedBytes bytes =>
    by_cases hb : 8 * (bytes.length : Int) = c.chunkLength
    · simp [FieldsChunk.step, FieldsChunk.setSerializedBytes, CHUNK_CHECK_IMPLEMENTATION, hb,
        FieldsChunk.cacheConsistent]
    · simpa [FieldsChunk.step, FieldsChunk.setSerializedBytes, CHUNK_CHECK_IMPLEMENTATION, hb]
        using h
  | setChunkLength n =>
    cases hi : c.isImmutable
    · simp [FieldsChunk.step, FieldsChunk.setChunkLength,
        FieldsChunk.handleChange_mutable c hi, FieldsChunk.cacheConsistent]
    · simpa [FieldsChunk.step, FieldsChunk.setChunkLength,
        FieldsChunk.handleChange_immutable c hi] using h
  | addChunkLength n =>
    cases hi : c.isImmutable
    · simp [FieldsChunk.step, FieldsChunk.addChunkLength,
        FieldsChunk.handleChange_mutable c hi, FieldsChunk.cacheConsistent]
    · simpa [FieldsChunk.step, FieldsChunk.addChunkLength,
        FieldsChunk.handleChange_immutable c hi] using h

/-- A sequence of calls keeps the cache predicate. -/
theorem FieldsChunk.run_cacheConsistent (ops : List FieldsOp) :
    ∀ c : FieldsChunk, c.cacheConsistent = true → (c.run ops).2.cacheConsistent = true := by
  induction ops with
  | nil => intro c h; simpa [FieldsChunk.run] using h
  | cons op ops ih =>
    intro c h
    have hs := FieldsChunk.step_cacheConsistent c op h
    rcases hstep : c.step op with ⟨r, c1⟩
    rw [hstep] at hs
    cases r with
    | error e => simpa [FieldsChunk.run, hstep] using hs
    | ok u => cases u; simpa [FieldsChunk.run, hstep] using ih c1 hs

/-- C7: the predicate "a cached serialized buffer, if present, has as many bits
as the chunk length" holds for a newly created `FieldsChunk`; a call of
`setSerializedBytes`, `setChunkLength` or `addChunkLength` on a chunk that
satisfies it yields a chunk that satisfies it (when the call returns normally,
and also when it fails); and it holds after every sequence of such calls on a
newly created chunk. -/
theorem FieldsChunk.cacheConsistent_invariant :
    (∀ len : b, (FieldsChunk.new len).cacheConsistent = true) ∧
    (∀ (c : FieldsChunk) (op : FieldsOp), c.cacheConsistent = true →
      (c.step op).2.cacheConsistent = true) ∧
    (∀ (len : b) (ops : List FieldsOp),
      ((FieldsChunk.new len).run ops).2.cacheConsistent = true) :=
  ⟨fun _ => rfl, FieldsChunk.step_cacheConsistent,
   fun len ops => FieldsChunk.run_cacheConsistent ops (FieldsChunk.new len) rfl⟩

/-- Witness for C7: a 64-bit chunk caching 8 bytes satisfies the predicate, and
still does after a successful `addChunkLength(8)`, which drops the cache. -/
theorem FieldsChunk.cacheConsistent_invariant_witness :
    (FieldsChunk.mk 0 64 (some [1, 2, 3, 4, 5, 6, 7, 8])).cacheConsistent = true ∧
    ((FieldsChunk.mk 0 64 (some [1, 2, 3, 4, 5, 6, 7, 8])).step (.addChunkLength 8)).1
      = .ok () ∧
    ((FieldsChunk.mk 0 64 (some [1, 2, 3, 4, 5, 6, 7, 8])).step
        (.addChunkLength 8)).2.cacheConsistent = true :=
  ⟨by decide, by decide,
   FieldsChunk.cacheConsistent_invariant.2.1
     (FieldsChunk.mk 0 64 (some [1, 2, 3, 4, 5, 6, 7, 8])) (.addChunkLength 8) (by decide)⟩

/-! ## Chunk length, insertion queries, flags inherited from the target -/

/-- C8: `getChunkLength()` of a `FieldsChunk` returns the stored `chunkLength`
when it is at least 0 and fails with the implementation error when it is
negative; `getChunkLength()` of a `SliceChunk` returns `getLength()` when it is
at least 0 and fails with the implementation error when it is negative, so a
slice whose length is the unset value -1 has no chunk length and a slice of
length 200 reports 200. -/
theorem getChunkLength_spec (c : FieldsChunk) (s : SliceChunk) :
    (0 ≤ c.chunkLength → c.getChunkLength = .ok c.chunkLength) ∧
    (c.chunkLength < 0 → c.getChunkLength = .error .ImplementationInconsistency) ∧
    (0 ≤ s.getLength → s.getChunkLength = .ok s.getLength) ∧
    (s.getLength < 0 → s.getChunkLength = .error .ImplementationInconsistency) ∧
    (s.getLength = -1 → s.getChunkLength = .error .ImplementationInconsistency) ∧
    (s.getLength = 200 → s.getChunkLength = .ok 200) := by
  refine ⟨fun h => ?_, fun h => ?_, fun h => ?_, fun h => ?_, fun h => ?_, fun h => ?_⟩
  · simp [FieldsChunk.getChunkLength, CHUNK_CHECK_IMPLEMENTATION, h, bind, Except.bind, pure,
      Except.pure]
  · simp [FieldsChunk.getChunkLength, CHUNK_CHECK_IMPLEMENTATION, not_le.mpr h, bind,
      Except.bind]
  · simp only [SliceChunk.getLength] at h
    simp [SliceChunk.getChunkLength, SliceChunk.getLength, CHUNK_CHECK_IMPLEMENTATION, h, bind,
      Except.bind, pure, Except.pure]
  · simp only [SliceChunk.getLength] at h
    simp [SliceChunk.getChunkLength, CHUNK_CHECK_IMPLEMENTATION, not_le.mpr h, bind,
      Except.bind]
  · simp only [SliceChunk.getLength] at h
    simp [SliceChunk.getChunkLength, CHUNK_CHECK_IMPLEMENTATION, h, bind, Except.bind]
  · simp only [SliceChunk.getLength] at h
    simp [SliceChunk.getChunkLength, CHUNK_CHECK_IMPLEMENTATION, h, bind, Except.bind, pure,
      Except.pure]

/-- Witness for C8: a 64-bit `FieldsChunk` reports 64, a `FieldsChunk` with
stored length -1 fails, a slice of length 200 reports 200 and a slice whose
length is still -1 fails. -/
theorem getChunkLength_spec_witness :
    (FieldsChunk.mk 0 64 none).getChunkLength = .ok 64 ∧
    (FieldsChunk.mk 0 (-1) none).getChunkLength = .error .ImplementationInconsistency ∧
    (SliceChunk.mk 0 (Chunk.fields ⟨CF_IMMUTABLE, 1000, none⟩) 100 200).getChunkLength
      = .ok 200 ∧
    (SliceChunk.mk 0 (Chunk.fields ⟨CF_IMMUTABLE, 1000, none⟩) (-1) (-1)).getChunkLength
      = .error .ImplementationInconsistency :=
  ⟨(getChunkLength_spec (FieldsChunk.mk 0 64 none)
      (SliceChunk.mk 0 (Chunk.fields ⟨CF_IMMUTABLE, 1000, none⟩) 100 200)).1 (by decide),
   (getChunkLength_spec (FieldsChunk.mk 0 (-1) none)
      (SliceChunk.mk 0 (Chunk.fields ⟨CF_IMMUTABLE, 1000, none⟩) 100 200)).2.1 (by decide),
   (getChunkLength_spec (FieldsChunk.mk 0 64 none)
      (SliceChunk.mk 0 (Chunk.fields ⟨CF_IMMUTABLE, 1000, none⟩) 100 200)).2.2.2.2.2 (by decide),
   (getChunkLength_spec (FieldsChunk.mk 0 64 none)
      (SliceChunk.mk 0 (Chunk.fields ⟨CF_IMMUTABLE, 1000, none⟩) (-1) (-1))).2.2.2.2.1
      (by decide)⟩

/-- C9: for every slice `s` and every chunk `c`, `canInsertAtFront(c)` and
`canInsertAtBack(c)` answer `false`. -/
theorem SliceChunk.canInsert_false (s : SliceChunk) (c : Chunk) :
    s.canInsertAtFront c = false ∧ s.canInsertAtBack c = false :=
  ⟨rfl, rfl⟩

/-- C10: whatever the own flags of a slice, an incorrect target makes the slice
incorrect and not correct, an incomplete target makes it incomplete and not
complete, an improperly represented target makes it improperly represented
and not properly represented, and a mutable target makes it mutable and not
immutable. -/
theorem SliceChunk.inherits_bad_flags (s : SliceChunk) :
    (s.getChunk.isIncorrect = true → s.isIncorrect = true ∧ s.isCorrect = false) ∧
    (s.getChunk.isIncomplete = true → s.isIncomplete = true ∧ s.isComplete = false) ∧
    (s.getChunk.isImproperlyRepresented = true →
      s.isImproperlyRepresented = true ∧ s.isProperlyRepresented = false) ∧
    (s.getChunk.isMutable = true → s.isMutable = true ∧ s.isImmutable = false) := by
  refine ⟨fun h => ?_, fun h => ?_, fun h => ?_, fun h => ?_⟩ <;>
    simp only [SliceChunk.getChunk] at h
  · simp [SliceChunk.isIncorrect, SliceChunk.isCorrect, Chunk.isCorrect_eq_not_isIncorrect, h]
  · simp [SliceChunk.isIncomplete, SliceChunk.isComplete, Chunk.isComplete_eq_not_isIncomplete, h]
  · simp [SliceChunk.isImproperlyRepresented, SliceChunk.isProperlyRepresented,
      Chunk.isProperlyRepresented_eq_not, h]
  · simp [SliceChunk.isMutable, SliceChunk.isImmutable, Chunk.isImmutable_eq_not_isMutable, h]

/-- Witness for C10: a slice with clear own flags over a slice of a chunk that
is mutable, incomplete, incorrect and improperly represented is itself all
four, and none of the four opposites. -/
theorem SliceChunk.inherits_bad_flags_witness :
    ((SliceChunk.mk 0 (Chunk.slice CF_IMMUTABLE (Chunk.fields ⟨15, 64, none⟩) 0 32) 8 16).isIncorrect
        = true ∧
      (SliceChunk.mk 0 (Chunk.slice CF_IMMUTABLE (Chunk.fields ⟨15, 64, none⟩) 0 32) 8 16).isCorrect
        = false) ∧
    ((SliceChunk.mk 0 (Chunk.slice CF_IMMUTABLE (Chunk.fields ⟨15, 64, none⟩) 0 32) 8 16).isIncomplete
        = true ∧
      (SliceChunk.mk 0 (Chunk.slice CF_IMMUTABLE (Chunk.fields ⟨15, 64, none⟩) 0 32) 8 16).isComplete
        = false) ∧
    ((SliceChunk.mk 0 (Chunk.slice CF_IMMUTABLE (Chunk.fields ⟨15, 64, none⟩) 0 32) 8
        16).isImproperlyRepresented = true ∧
      (SliceChunk.mk 0 (Chunk.slice CF_IMMUTABLE (Chunk.fields ⟨15, 64, none⟩) 0 32) 8
        16).isProperlyRepresented = false) ∧
    ((SliceChunk.mk CF_IMMUTABLE (Chunk.fields ⟨0, 64, none⟩) 8 16).isMutable = true ∧
      (SliceChunk.mk CF_IMMUTABLE (Chunk.fields ⟨0, 64, none⟩) 8 16).isImmutable = false) :=
  ⟨(SliceChunk.inherits_bad_flags
      (SliceChunk.mk 0 (Chunk.slice CF_IMMUTABLE (Chunk.fields ⟨15, 64, none⟩) 0 32) 8 16)).1
      (by decide),
   (SliceChunk.inherits_bad_flags
      (SliceChunk.mk 0 (Chunk.slice CF_IMMUTABLE (Chunk.fields ⟨15, 64, none⟩) 0 32) 8 16)).2.1
      (by decide),
   (SliceChunk.inherits_bad_flags
      (SliceChunk.mk 0 (Chunk.slice CF_IMMUTABLE (Chunk.fields ⟨15, 64, none⟩) 0 32) 8 16)).2.2.1
      (by decide),
   (SliceChunk.inherits_bad_flags
      (SliceChunk.mk CF_IMMUTABLE (Chunk.fields ⟨0, 64, none⟩) 8 16)).2.2.2 (by decide)⟩

/-! ## FieldsChunk: sign of the stored length -/

/-- Counterexample for C11: a mutable chunk of length 64 accepts
`setChunkLength(-1)` and `addChunkLength(-65)`; both return normally and leave
a negative stored length. -/
theorem FieldsChunk.length_nonneg_counterexample :
    (FieldsChunk.mk 0 64 none).isMutable = true ∧
    (0 : Int) ≤ (FieldsChunk.mk 0 64 none).chunkLength ∧
    ((FieldsChunk.mk 0 64 none).setChunkLength (-1)).1 = .ok () ∧
    ((FieldsChunk.mk 0 64 none).setChunkLength (-1)).2.chunkLength < 0 ∧
    ((FieldsChunk.mk 0 64 none).addChunkLength (-65)).1 = .ok () ∧
    ((FieldsChunk.mk 0 64 none).addChunkLength (-65)).2.chunkLength < 0 := by
  decide

/-- C11 (amended): on a mutable `FieldsChunk` with length at least 0,
`setChunkLength(n)` and `addChunkLength(n)` return normally for every `n`; the
stored length afterwards is at least 0 exactly when `n`, respectively the old
length plus `n`, is at least 0; otherwise the stored length is negative and
`getChunkLength()` then fails with the implementation error. -/
theorem FieldsChunk.length_sign_after_setters (c : FieldsChunk) (n : b)
    (hm : c.isMutable = true) (_h0 : 0 ≤ c.chunkLength) :
    (c.setChunkLength n).1 = .ok () ∧
    (c.addChunkLength n).1 = .ok () ∧
    (0 ≤ (c.setChunkLength n).2.chunkLength ↔ 0 ≤ n) ∧
    (0 ≤ (c.addChunkLength n).2.chunkLength ↔ 0 ≤ c.chunkLength + n) ∧
    (n < 0 →
      (c.setChunkLength n).2.getChunkLength = .error .ImplementationInconsistency) ∧
    (c.chunkLength + n < 0 →
      (c.addChunkLength n).2.getChunkLength = .error .ImplementationInconsistency) := by
  have h1 : c.isImmutable = false := by simp [FieldsChunk.immutable_eq_not_mutable, hm]
  refine ⟨?_, ?_, ?_, ?_, fun hn => ?_, fun hn => ?_⟩
  · simp [FieldsChunk.setChunkLength, FieldsChunk.handleChange_mutable c h1]
  · simp [FieldsChunk.addChunkLength, FieldsChunk.handleChange_mutable c h1]
  · simp [FieldsChunk.setChunkLength, FieldsChunk.handleChange_mutable c h1]
  · simp [FieldsChunk.addChunkLength, FieldsChunk.handleChange_mutable c h1]
  · simp [FieldsChunk.setChunkLength, FieldsChunk.handleChange_mutable c h1,
      FieldsChunk.getChunkLength, CHUNK_CHECK_IMPLEMENTATION, not_le.mpr hn, bind, Except.bind]
  · simp [FieldsChunk.addChunkLength, FieldsChunk.handleChange_mutable c h1,
      FieldsChunk.getChunkLength, CHUNK_CHECK_IMPLEMENTATION, not_le.mpr hn, bind, Except.bind]

/-- Witness for C11 (amended): on a mutable chunk of length 64,
`addChunkLength(8)` leaves a stored length that is at least 0, and after
`setChunkLength(-1)` the length query fails. -/
theorem FieldsChunk.length_sign_after_setters_witness :
    (0 : Int) ≤ ((FieldsChunk.mk 0 64 none).addChunkLength 8).2.chunkLength ∧
    ((FieldsChunk.mk 0 64 none).setChunkLength (-1)).2.getChunkLength
      = .error .ImplementationInconsistency :=
  ⟨(FieldsChunk.length_sign_after_setters (FieldsChunk.mk 0 64 none) 8 (by decide)
      (by decide)).2.2.2.1.mpr (by decide),
   (FieldsChunk.length_sign_after_setters (FieldsChunk.mk 0 64 none) (-1) (by decide)
      (by decide)).2.2.2.2.1 (by decide)⟩

/-! ## Ipv6Address: word-level facts -/

/-- The shifted all-ones word is the difference of two powers of 2. -/
theorem shl32ones_eq (n : Nat) (h : n ≤ 32) : shl32ones n = 2 ^ 32 - 2 ^ n := by
  interval_cases n <;> rfl

/-- Bits of `2^32 - 2^n`: exactly the positions `n..31`. -/
theorem testBit_two_pow_32_sub (n j : Nat) (h : n ≤ 32) :
    (2 ^ 32 - 2 ^ n).testBit j = (decide (n ≤ j) && decide (j < 32)) := by
  have e : 2 ^ 32 - 2 ^ n = 2 ^ n * (2 ^ (32 - n) - 1) := by
    rw [Nat.mul_sub, ← pow_add, Nat.add_sub_cancel' h, mul_one]
  rw [e, Nat.testBit_mul_pow_two, Nat.testBit_two_pow_sub_one]
  by_cases h1 : n ≤ j <;> by_cases h2 : j < 32 <;> simp [h1, h2] <;> omega

/-- Bits of `hiOnes n`. -/
theorem testBit_hiOnes (n j : Nat) :
    (Ipv6Address.hiOnes n).testBit j = (decide (32 - n ≤ j) && decide (j < 32)) :=
  testBit_two_pow_32_sub (32 - n) j (Nat.sub_le 32 n)

/-- Bits of the 32-bit complement. -/
theorem testBit_not32 (m j : Nat) :
    (not32 m).testBit j = (decide (j < 32) ^^ m.testBit j) := by
  have e : (0xFFFFFFFF : Nat) = 2 ^ 32 - 1 := by norm_num
  rw [not32, e, Nat.testBit_xor, Nat.testBit_two_pow_sub_one]

/-- A 32-bit word has no bit at position 32 or above. -/
theorem testBit_of_lt_two_pow_32 (d j : Nat) (hd : d < 2 ^ 32) (hj : ¬ j < 32) :
    d.testBit j = false :=
  Nat.testBit_lt_two_pow
    (lt_of_lt_of_le hd (Nat.pow_le_pow_right (by norm_num) (by omega)))

/-- The two halves selected by a mask and its complement give back the word. -/
theorem and_or_and_not32 (d m : Nat) (hd : d < 2 ^ 32) :
    (d &&& m) ||| (d &&& not32 m) = d := by
  apply Nat.eq_of_testBit_eq
  intro j
  simp only [Nat.testBit_or, Nat.testBit_and, testBit_not32]
  by_cases hj : j < 32
  · simp [hj]
    cases d.testBit j <;> cases m.testBit j <;> rfl
  · simp [testBit_of_lt_two_pow_32 d j hd hj]

/-- The two halves selected by a mask and its complement share no bit. -/
theorem and_and_and_not32 (d m : Nat) (hd : d < 2 ^ 32) :
    (d &&& m) &&& (d &&& not32 m) = 0 := by
  apply Nat.eq_of_testBit_eq
  intro j
  simp only [Nat.testBit_and, testBit_not32, Nat.zero_testBit]
  by_cases hj : j < 32
  · cases d.testBit j <;> cases m.testBit j <;> simp [hj]
  · simp [testBit_of_lt_two_pow_32 d j hd hj]

/-- Two words agree under a mask exactly when their XOR vanishes under it. -/
theorem xor_and_eq_zero_iff (x y m : Nat) : (x ^^^ y) &&& m = 0 ↔ x &&& m = y &&& m := by
  constructor
  · intro h
    apply Nat.eq_of_testBit_eq
    intro j
    have := congrArg (fun t => Nat.testBit t j) h
    simp only [Nat.testBit_and, Nat.testBit_xor, Nat.zero_testBit] at this
    simp only [Nat.testBit_and]
    cases hx : x.testBit j <;> cases hy : y.testBit j <;> cases hm : m.testBit j <;> simp_all
  · intro h
    apply Nat.eq_of_testBit_eq
    intro j
    have := congrArg (fun t => Nat.testBit t j) h
    simp only [Nat.testBit_and] at this
    simp only [Nat.testBit_and, Nat.testBit_xor, Nat.zero_testBit]
    cases hx : x.testBit j <;> cases hy : y.testBit j <;> cases hm : m.testBit j <;> simp_all

/-- An OR of two numbers is 0 exactly when both are 0. -/
theorem or_eq_zero_iff_both (x y : Nat) : x ||| y = 0 ↔ x = 0 ∧ y = 0 := by
  constructor
  · intro h
    have hb : ∀ j, x.testBit j = false ∧ y.testBit j = false := by
      intro j
      have := congrArg (fun t => Nat.testBit t j) h
      simpa [Nat.testBit_or] using this
    exact ⟨Nat.eq_of_testBit_eq (fun j => by simp [(hb j).1]),
      Nat.eq_of_testBit_eq (fun j => by simp [(hb j).2])⟩
  · rintro ⟨rfl, rfl⟩
    rfl

/-- Masking a 32-bit word with `2^32 - 2^n` clears its `n` low bits. -/
theorem and_two_pow_32_sub (d n : Nat) (hd : d < 2 ^ 32) (h : n ≤ 32) :
    d &&& (2 ^ 32 - 2 ^ n) = d / 2 ^ n * 2 ^ n := by
  apply Nat.eq_of_testBit_eq
  intro j
  rw [Nat.testBit_and, testBit_two_pow_32_sub n j h, Nat.mul_comm, Nat.testBit_mul_pow_two,
    ← Nat.shiftRight_eq_div_pow, Nat.testBit_shiftRight]
  by_cases h1 : n ≤ j
  · by_cases h2 : j < 32
    · simp [h1, h2, Nat.add_sub_cancel' h1]
    · simp [h1, h2, Nat.add_sub_cancel' h1, testBit_of_lt_two_pow_32 d j hd h2]
  · simp [h1]

/-! ## Ipv6Address: the mask -/

/-- The mask of a prefix length: word `k` has the `p - 32 k` leading ones. -/
theorem Ipv6Address.constructMask_eq (p : Nat) (hp : p ≤ 128) :
    Ipv6Address.constructMask (p : Int)
      = some ⟨Ipv6Address.hiOnes p, Ipv6Address.hiOnes (p - 32), Ipv6Address.hiOnes (p - 64),
          Ipv6Address.hiOnes (p - 96)⟩ := by
  interval_cases p <;> rfl

/-- A word of leading ones is a 32-bit value. -/
theorem Ipv6Address.hiOnes_lt (n : Nat) : Ipv6Address.hiOnes n < 2 ^ 32 := by
  have : 0 < 2 ^ (32 - n) := Nat.pow_pos (by norm_num)
  unfold Ipv6Address.hiOnes
  omega

/-- Bit `i` of the mask of prefix length `p` is set exactly when `i < p`. -/
theorem Ipv6Address.bit_mask (p i : Nat) (hi : i < 128) :
    (Ipv6Address.mk (Ipv6Address.hiOnes p) (Ipv6Address.hiOnes (p - 32))
      (Ipv6Address.hiOnes (p - 64)) (Ipv6Address.hiOnes (p - 96))).bit i = decide (i < p) := by
  have hk : i / 32 = 0 ∨ i / 32 = 1 ∨ i / 32 = 2 ∨ i / 32 = 3 := by omega
  unfold Ipv6Address.bit
  rcases hk with h | h | h | h <;> rw [h] <;>
    simp only [Ipv6Address.word, testBit_hiOnes] <;>
    by_cases hlt : i < p <;> simp [hlt] <;> omega

/-- Bits of a word-wise AND. -/
theorem Ipv6Address.bit_wordAnd (x y : Ipv6Address) (i : Nat) :
    (x.wordAnd y).bit i = (x.bit i && y.bit i) := by
  unfold Ipv6Address.bit Ipv6Address.wordAnd
  rcases i / 32 with _ | _ | _ | _ <;> simp [Ipv6Address.word]

/-- Bits of a word-wise OR. -/
theorem Ipv6Address.bit_wordOr (x y : Ipv6Address) (i : Nat) :
    (x.wordOr y).bit i = (x.bit i || y.bit i) := by
  unfold Ipv6Address.bit Ipv6Address.wordOr
  rcases i / 32 with _ | _ | _ | _ <;> simp [Ipv6Address.word]

/-- Bits of a word-wise complement. -/
theorem Ipv6Address.bit_wordNot (x : Ipv6Address) (i : Nat) :
    x.wordNot.bit i = !x.bit i := by
  have hj : 31 - i % 32 < 32 := by omega
  unfold Ipv6Address.bit Ipv6Address.wordNot
  rcases i / 32 with _ | _ | _ | _ <;> simp [Ipv6Address.word, testBit_not32, hj]

/-- Two addresses of 32-bit words with the same 128 bits are equal. -/
theorem Ipv6Address.eq_of_bit_eq (x y : Ipv6Address) (hx : x.InRange) (hy : y.InRange)
    (h : ∀ i, i < 128 → x.bit i = y.bit i) : x = y := by
  have key : ∀ k, k < 4 → x.word k = y.word k := by
    intro k hk
    have hxk : x.word k < 2 ^ 32 := by
      rcases hx with ⟨h0, h1, h2, h3⟩
      rcases k with _ | _ | _ | _ <;> simpa [Ipv6Address.word]
    have hyk : y.word k < 2 ^ 32 := by
      rcases hy with ⟨h0, h1, h2, h3⟩
      rcases k with _ | _ | _ | _ <;> simpa [Ipv6Address.word]
    apply Nat.eq_of_testBit_eq
    intro j
    by_cases hj : j < 32
    · have hb := h (32 * k + (31 - j)) (by omega)
      unfold Ipv6Address.bit at hb
      have e1 : (32 * k + (31 - j)) / 32 = k := by omega
      have e2 : 31 - (32 * k + (31 - j)) % 32 = j := by omega
      rw [e1, e2] at hb
      exact hb
    · rw [testBit_of_lt_two_pow_32 _ j hxk hj, testBit_of_lt_two_pow_32 _ j hyk hj]
  have k0 := key 0 (by norm_num)
  have k1 := key 1 (by norm_num)
  have k2 := key 2 (by norm_num)
  have k3 := key 3 (by norm_num)
  simp only [Ipv6Address.word] at k0 k1 k2 k3
  cases x
  cases y
  simp_all

/-- `getPrefix` is the word-wise AND with the mask. -/
theorem Ipv6Address.getPrefix_eq (a : Ipv6Address) (p : Int) :
    a.getPrefix p = (Ipv6Address.constructMask p).map (fun m => a.wordAnd m) := by
  unfold Ipv6Address.getPrefix
  cases Ipv6Address.constructMask p <;> rfl

/-- `getSuffix` is the word-wise AND with the complement of the mask. -/
theorem Ipv6Address.getSuffix_eq (a : Ipv6Address) (p : Int) :
    a.getSuffix p = (Ipv6Address.constructMask p).map (fun m => a.wordAnd m.wordNot) := by
  unfold Ipv6Address.getSuffix
  cases Ipv6Address.constructMask p <;> rfl

/-- `setPrefix` is the word-wise combination of the two masked halves. -/
theorem Ipv6Address.setPrefix_eq (a f : Ipv6Address) (p : Int) :
    a.setPrefix f p
      = (Ipv6Address.constructMask p).map
          (fun m => (a.wordAnd m.wordNot).wordOr (f.wordAnd m)) := by
  unfold Ipv6Address.setPrefix
  cases Ipv6Address.constructMask p <;> rfl

/-- `setSuffix` is the word-wise combination of the two masked halves. -/
theorem Ipv6Address.setSuffix_eq (a f : Ipv6Address) (p : Int) :
    a.setSuffix f p
      = (Ipv6Address.constructMask p).map
          (fun m => (a.wordAnd m).wordOr (f.wordAnd m.wordNot)) := by
  unfold Ipv6Address.setSuffix
  cases Ipv6Address.constructMask p <;> rfl

/-- Word-wise OR is commutative. -/
theorem Ipv6Address.wordOr_comm (x y : Ipv6Address) : x.wordOr y = y.wordOr x := by
  simp [Ipv6Address.wordOr, Nat.lor_comm]

/-- C13: for every prefix length `p` from 0 to 128, `constructMask(p)` returns
four 32-bit words which, read as one 128-bit big-endian number, are
`2^128 - 2^(128-p)`; bit `i` (from the most significant) is 1 exactly when
`i < p`. -/
theorem Ipv6Address.constructMask_value (p : Nat) (hp : p ≤ 128) :
    ∃ m : Ipv6Address, Ipv6Address.constructMask (p : Int) = some m ∧ m.InRange ∧
      m.toNat = 2 ^ 128 - 2 ^ (128 - p) ∧
      ∀ i, i < 128 → m.bit i = decide (i < p) := by
  refine ⟨_, Ipv6Address.constructMask_eq p hp, ?_, ?_, ?_⟩
  · exact ⟨Ipv6Address.hiOnes_lt _, Ipv6Address.hiOnes_lt _, Ipv6Address.hiOnes_lt _,
      Ipv6Address.hiOnes_lt _⟩
  · interval_cases p <;> rfl
  · intro i hi
    exact Ipv6Address.bit_mask p i hi

/-- Witness for C13: the mask of prefix length 10 is `FFC0::`. -/
theorem Ipv6Address.constructMask_value_witness :
    ∃ m : Ipv6Address, Ipv6Address.constructMask ((10 : Nat) : Int) = some m ∧ m.InRange ∧
      m.toNat = 2 ^ 128 - 2 ^ (128 - 10) ∧
      ∀ i, i < 128 → m.bit i = decide (i < 10) :=
  Ipv6Address.constructMask_value 10 (by decide)

/-! ## Ipv6Address: prefix and suffix -/

/-- The masked halves of an address of 32-bit words recombine to it. -/
theorem Ipv6Address.wordAnd_wordOr_wordNot (a m : Ipv6Address) (ha : a.InRange) :
    (a.wordAnd m).wordOr (a.wordAnd m.wordNot) = a := by
  rcases ha with ⟨h0, h1, h2, h3⟩
  cases a
  simp only [Ipv6Address.wordAnd, Ipv6Address.wordOr, Ipv6Address.wordNot,
    Ipv6Address.mk.injEq]
  exact ⟨and_or_and_not32 _ _ h0, and_or_and_not32 _ _ h1, and_or_and_not32 _ _ h2,
    and_or_and_not32 _ _ h3⟩

/-- The masked halves of an address of 32-bit words are disjoint. -/
theorem Ipv6Address.wordAnd_wordAnd_wordNot (a m : Ipv6Address) (ha : a.InRange) :
    (a.wordAnd m).wordAnd (a.wordAnd m.wordNot) = Ipv6Address.zero := by
  rcases ha with ⟨h0, h1, h2, h3⟩
  cases a
  simp only [Ipv6Address.wordAnd, Ipv6Address.wordNot, Ipv6Address.zero,
    Ipv6Address.mk.injEq]
  exact ⟨and_and_and_not32 _ _ h0, and_and_and_not32 _ _ h1, and_and_and_not32 _ _ h2,
    and_and_and_not32 _ _ h3⟩

/-- Masking with all ones keeps a 32-bit word. -/
theorem and_all_ones32 (d : Nat) (hd : d < 2 ^ 32) : d &&& 0xFFFFFFFF = d := by
  have e : (0xFFFFFFFF : Nat) = 2 ^ 32 - 1 := by norm_num
  rw [e, Nat.and_pow_two_sub_one_eq_mod, Nat.mod_eq_of_lt hd]

/-- The mask of prefix length 128 keeps an address of 32-bit words. -/
theorem Ipv6Address.getPrefix_128 (a : Ipv6Address) (ha : a.InRange) :
    a.getPrefix 128 = some a := by
  rcases ha with ⟨h0, h1, h2, h3⟩
  cases a
  simp only at h0 h1 h2 h3
  have hm : Ipv6Address.constructMask 128
      = some ⟨0xFFFFFFFF, 0xFFFFFFFF, 0xFFFFFFFF, 0xFFFFFFFF⟩ := by decide
  simp only [Ipv6Address.getPrefix_eq, hm, Ipv6Address.wordAnd, Option.map_some',
    Option.some.injEq, Ipv6Address.mk.injEq]
  exact ⟨and_all_ones32 _ h0, and_all_ones32 _ h1, and_all_ones32 _ h2, and_all_ones32 _ h3⟩

/-- The mask of prefix length 0 clears an address. -/
theorem Ipv6Address.getPrefix_0 (a : Ipv6Address) : a.getPrefix 0 = some Ipv6Address.zero := by
  have hm : Ipv6Address.constructMask 0 = some ⟨0, 0, 0, 0⟩ := by decide
  simp [Ipv6Address.getPrefix_eq, hm, Ipv6Address.wordAnd, Ipv6Address.zero]

/-- The result of `getPrefix`: four 32-bit words with the first `p` bits of the
address and zeroes after them. -/
theorem Ipv6Address.getPrefix_bits (a : Ipv6Address) (p : Nat) (hp : p ≤ 128) :
    ∃ pre : Ipv6Address, a.getPrefix (p : Int) = some pre ∧ pre.InRange ∧
      ∀ i, i < 128 → pre.bit i = (decide (i < p) && a.bit i) := by
  refine ⟨_, by rw [Ipv6Address.getPrefix_eq, Ipv6Address.constructMask_eq p hp]; rfl, ?_, ?_⟩
  · exact ⟨lt_of_le_of_lt Nat.and_le_right (Ipv6Address.hiOnes_lt _),
      lt_of_le_of_lt Nat.and_le_right (Ipv6Address.hiOnes_lt _),
      lt_of_le_of_lt Nat.and_le_right (Ipv6Address.hiOnes_lt _),
      lt_of_le_of_lt Nat.and_le_right (Ipv6Address.hiOnes_lt _)⟩
  · intro i hi
    rw [Ipv6Address.bit_wordAnd, Ipv6Address.bit_mask p i hi, Bool.and_comm]

/-- C14: for an address `a` of 32-bit words and `p` from 0 to 128,
`getPrefix(p)` has the first `p` bits of `a` and zeroes after them,
`getSuffix(p)` has zeroes in the first `p` bits and the last `128 - p` bits of
`a`; their word-wise OR is `a` and their word-wise AND is the zero address;
`getPrefix(128)` is `a` and `getPrefix(0)` is the zero address. -/
theorem Ipv6Address.getPrefix_getSuffix_partition (a : Ipv6Address) (ha : a.InRange)
    (p : Nat) (hp : p ≤ 128) :
    ∃ pre suf : Ipv6Address,
      a.getPrefix (p : Int) = some pre ∧ a.getSuffix (p : Int) = some suf ∧
      (∀ i, i < 128 → pre.bit i = (decide (i < p) && a.bit i)) ∧
      (∀ i, i < 128 → suf.bit i = (decide (p ≤ i) && a.bit i)) ∧
      pre.wordOr suf = a ∧ pre.wordAnd suf = Ipv6Address.zero ∧
      a.getPrefix 128 = some a ∧ a.getPrefix 0 = some Ipv6Address.zero := by
  refine ⟨_, _, by rw [Ipv6Address.getPrefix_eq, Ipv6Address.constructMask_eq p hp]; rfl,
    by rw [Ipv6Address.getSuffix_eq, Ipv6Address.constructMask_eq p hp]; rfl, ?_, ?_,
    Ipv6Address.wordAnd_wordOr_wordNot a _ ha, Ipv6Address.wordAnd_wordAnd_wordNot a _ ha,
    Ipv6Address.getPrefix_128 a ha, Ipv6Address.getPrefix_0 a⟩
  · intro i hi
    rw [Ipv6Address.bit_wordAnd, Ipv6Address.bit_mask p i hi, Bool.and_comm]
  · intro i hi
    rw [Ipv6Address.bit_wordAnd, Ipv6Address.bit_wordNot, Ipv6Address.bit_mask p i hi,
      Bool.and_comm]
    by_cases h : i < p <;> simp [h, Nat.not_le.mpr, Nat.le_of_not_lt]

/-- Witness for C14: the address `2001:db8:1:2:3:4:5:6` and prefix length 48. -/
theorem Ipv6Address.getPrefix_getSuffix_partition_witness :
    ∃ pre suf : Ipv6Address,
      (Ipv6Address.mk 0x20010db8 0x00010002 0x00030004 0x00050006).getPrefix ((48 : Nat) : Int)
        = some pre ∧
      (Ipv6Address.mk 0x20010db8 0x00010002 0x00030004 0x00050006).getSuffix ((48 : Nat) : Int)
        = some suf ∧
      (∀ i, i < 128 → pre.bit i = (decide (i < 48) &&
        (Ipv6Address.mk 0x20010db8 0x00010002 0x00030004 0x00050006).bit i)) ∧
      (∀ i, i < 128 → suf.bit i = (decide (48 ≤ i) &&
        (Ipv6Address.mk 0x20010db8 0x00010002 0x00030004 0x00050006).bit i)) ∧
      pre.wordOr suf = Ipv6Address.mk 0x20010db8 0x00010002 0x00030004 0x00050006 ∧
      pre.wordAnd suf = Ipv6Address.zero ∧
      (Ipv6Address.mk 0x20010db8 0x00010002 0x00030004 0x00050006).getPrefix 128
        = some (Ipv6Address.mk 0x20010db8 0x00010002 0x00030004 0x00050006) ∧
      (Ipv6Address.mk 0x20010db8 0x00010002 0x00030004 0x00050006).getPrefix 0
        = some Ipv6Address.zero :=
  Ipv6Address.getPrefix_getSuffix_partition
    (Ipv6Address.mk 0x20010db8 0x00010002 0x00030004 0x00050006) (by decide) 48 (by decide)

/-! ## Ipv6Address: matching -/

/-- `matches` compares the two addresses under the mask, word by word. -/
theorem Ipv6Address.matches_eq (a q : Ipv6Address) (p : Int) :
    a.matches q p
      = (Ipv6Address.constructMask p).map (fun m => decide (a.wordAnd m = q.wordAnd m)) := by
  unfold Ipv6Address.matches
  cases h : Ipv6Address.constructMask p with
  | none => rfl
  | some m =>
    simp only [Option.map_some', Option.bind_eq_bind, Option.some_bind, Option.pure_def,
      Option.some.injEq, Ipv6Address.wordAnd, Ipv6Address.mk.injEq]
    rw [Bool.eq_iff_iff]
    simp only [beq_iff_eq, decide_eq_true_eq, or_eq_zero_iff_both, xor_and_eq_zero_iff]
    tauto

/-- C15: for addresses `a` and `q` of 32-bit words and `p` from 0 to 128,
`a.matches(q, p)` is true exactly when `a.getPrefix(p) = q.getPrefix(p)`,
which is exactly when `a` and `q` agree on their first `p` bits;
`matches(q, 0)` is true and `matches(q, 128)` is true exactly when `a = q`. -/
theorem Ipv6Address.matches_iff (a q : Ipv6Address) (ha : a.InRange) (hq : q.InRange)
    (p : Nat) (hp : p ≤ 128) :
    (a.matches q (p : Int) = some true ∨ a.matches q (p : Int) = some false) ∧
    (a.matches q (p : Int) = some true ↔ a.getPrefix (p : Int) = q.getPrefix (p : Int)) ∧
    (a.matches q (p : Int) = some true ↔ ∀ i, i < p → a.bit i = q.bit i) ∧
    a.matches q 0 = some true ∧
    (a.matches q 128 = some true ↔ a = q) := by
  have hbits : ∀ (n : Nat), n ≤ 128 →
      (a.getPrefix (n : Int) = q.getPrefix (n : Int) ↔ ∀ i, i < n → a.bit i = q.bit i) := by
    intro n hn
    obtain ⟨pa, hpa, rpa, hba⟩ := Ipv6Address.getPrefix_bits a n hn
    obtain ⟨pq, hpq, rpq, hbq⟩ := Ipv6Address.getPrefix_bits q n hn
    rw [hpa, hpq]
    constructor
    · intro h i hi
      have hi128 : i < 128 := by omega
      have e1 := hba i hi128
      have e2 := hbq i hi128
      simp only [Option.some.injEq] at h
      rw [h] at e1
      rw [e1] at e2
      simpa [hi] using e2
    · intro h
      congr 1
      apply Ipv6Address.eq_of_bit_eq pa pq rpa rpq
      intro i hi
      rw [hba i hi, hbq i hi]
      by_cases hn2 : i < n
      · simp [hn2, h i hn2]
      · simp [hn2]
  have hmp : ∀ (n : Nat), n ≤ 128 →
      (a.matches q (n : Int) = some true ↔ a.getPrefix (n : Int) = q.getPrefix (n : Int)) := by
    intro n hn
    rw [Ipv6Address.matches_eq, Ipv6Address.getPrefix_eq, Ipv6Address.getPrefix_eq,
      Ipv6Address.constructMask_eq n hn]
    simp
  refine ⟨?_, hmp p hp, (hmp p hp).trans (hbits p hp), ?_, ?_⟩
  · rw [Ipv6Address.matches_eq, Ipv6Address.constructMask_eq p hp]
    by_cases h : a.wordAnd ⟨Ipv6Address.hiOnes p, Ipv6Address.hiOnes (p - 32),
        Ipv6Address.hiOnes (p - 64), Ipv6Address.hiOnes (p - 96)⟩
        = q.wordAnd ⟨Ipv6Address.hiOnes p, Ipv6Address.hiOnes (p - 32),
          Ipv6Address.hiOnes (p - 64), Ipv6Address.hiOnes (p - 96)⟩
    · left; simp [h]
    · right; simp [h]
  · have h0 := (hmp 0 (by norm_num)).mpr
    apply h0
    change a.getPrefix 0 = q.getPrefix 0
    rw [Ipv6Address.getPrefix_0, Ipv6Address.getPrefix_0]
  · have h128 := hmp 128 (by norm_num)
    have e : ((128 : Nat) : Int) = 128 := rfl
    rw [e] at h128
    rw [h128, Ipv6Address.getPrefix_128 a ha, Ipv6Address.getPrefix_128 q hq]
    simp

/-- Witness for C15: `2001:db8:1:2::1` matches `2001:db8:1:ffff::` on 48 bits. -/
theorem Ipv6Address.matches_iff_witness :
    (Ipv6Address.mk 0x20010db8 0x00010002 0 1).matches
        (Ipv6Address.mk 0x20010db8 0x0001ffff 0 0) ((48 : Nat) : Int) = some true ↔
      (Ipv6Address.mk 0x20010db8 0x00010002 0 1).getPrefix ((48 : Nat) : Int)
        = (Ipv6Address.mk 0x20010db8 0x0001ffff 0 0).getPrefix ((48 : Nat) : Int) :=
  (Ipv6Address.matches_iff (Ipv6Address.mk 0x20010db8 0x00010002 0 1)
    (Ipv6Address.mk 0x20010db8 0x0001ffff 0 0) (by decide) (by decide) 48 (by decide)).2.1

/-! ## Ipv6Address: replacing the prefix or the suffix -/

/-- C16: for addresses `a` and `f` and `p` from 0 to 128, `a.setPrefix(f, p)`
leaves in `a` the word-wise OR of `f.getPrefix(p)` and the old
`a.getSuffix(p)`: the first `p` bits are those of `f`, the last `128 - p`
bits are unchanged; `a.setSuffix(f, p)` leaves the word-wise OR of the old
`a.getPrefix(p)` and `f.getSuffix(p)`: the first `p` bits are unchanged, the
last `128 - p` bits are those of `f`. -/
theorem Ipv6Address.setPrefix_setSuffix_spec (a f : Ipv6Address) (p : Nat) (hp : p ≤ 128) :
    ∃ a1 a2 fp fs ap as : Ipv6Address,
      a.setPrefix f (p : Int) = some a1 ∧
      f.getPrefix (p : Int) = some fp ∧ a.getSuffix (p : Int) = some as ∧
      a1 = fp.wordOr as ∧
      (∀ i, i < 128 → a1.bit i = if i < p then f.bit i else a.bit i) ∧
      a.setSuffix f (p : Int) = some a2 ∧
      a.getPrefix (p : Int) = some ap ∧ f.getSuffix (p : Int) = some fs ∧
      a2 = ap.wordOr fs ∧
      (∀ i, i < 128 → a2.bit i = if i < p then a.bit i else f.bit i) := by
  refine ⟨_, _, _, _, _, _,
    by rw [Ipv6Address.setPrefix_eq, Ipv6Address.constructMask_eq p hp]; rfl,
    by rw [Ipv6Address.getPrefix_eq, Ipv6Address.constructMask_eq p hp]; rfl,
    by rw [Ipv6Address.getSuffix_eq, Ipv6Address.constructMask_eq p hp]; rfl,
    Ipv6Address.wordOr_comm _ _, ?_,
    by rw [Ipv6Address.setSuffix_eq, Ipv6Address.constructMask_eq p hp]; rfl,
    by rw [Ipv6Address.getPrefix_eq, Ipv6Address.constructMask_eq p hp]; rfl,
    by rw [Ipv6Address.getSuffix_eq, Ipv6Address.constructMask_eq p hp]; rfl,
    rfl, ?_⟩
  · intro i hi
    rw [Ipv6Address.bit_wordOr, Ipv6Address.bit_wordAnd, Ipv6Address.bit_wordAnd,
      Ipv6Address.bit_wordNot, Ipv6Address.bit_mask p i hi]
    by_cases h : i < p <;> simp [h]
  · intro i hi
    rw [Ipv6Address.bit_wordOr, Ipv6Address.bit_wordAnd, Ipv6Address.bit_wordAnd,
      Ipv6Address.bit_wordNot, Ipv6Address.bit_mask p i hi]
    by_cases h : i < p <;> simp [h]

/-- Witness for C16: the 64-bit prefix of `fe80::1` is replaced by that of
`2001:db8:1:2::`, giving `2001:db8:1:2::1`. -/
theorem Ipv6Address.setPrefix_setSuffix_spec_witness :
    (Ipv6Address.mk 0xfe800000 0 0 1).setPrefix (Ipv6Address.mk 0x20010db8 0x00010002 0 0)
        ((64 : Nat) : Int) = some (Ipv6Address.mk 0x20010db8 0x00010002 0 1) ∧
    ∃ a1 a2 fp fs ap as : Ipv6Address,
      (Ipv6Address.mk 0xfe800000 0 0 1).setPrefix (Ipv6Address.mk 0x20010db8 0x00010002 0 0)
        ((64 : Nat) : Int) = some a1 ∧
      (Ipv6Address.mk 0x20010db8 0x00010002 0 0).getPrefix ((64 : Nat) : Int) = some fp ∧
      (Ipv6Address.mk 0xfe800000 0 0 1).getSuffix ((64 : Nat) : Int) = some as ∧
      a1 = fp.wordOr as ∧
      (∀ i, i < 128 → a1.bit i = if i < 64 then (Ipv6Address.mk 0x20010db8 0x00010002 0 0).bit i
        else (Ipv6Address.mk 0xfe800000 0 0 1).bit i) ∧
      (Ipv6Address.mk 0xfe800000 0 0 1).setSuffix (Ipv6Address.mk 0x20010db8 0x00010002 0 0)
        ((64 : Nat) : Int) = some a2 ∧
      (Ipv6Address.mk 0xfe800000 0 0 1).getPrefix ((64 : Nat) : Int) = some ap ∧
      (Ipv6Address.mk 0x20010db8 0x00010002 0 0).getSuffix ((64 : Nat) : Int) = some fs ∧
      a2 = ap.wordOr fs ∧
      (∀ i, i < 128 → a2.bit i = if i < 64 then (Ipv6Address.mk 0xfe800000 0 0 1).bit i
        else (Ipv6Address.mk 0x20010db8 0x00010002 0 0).bit i) :=
  ⟨by decide,
   Ipv6Address.setPrefix_setSuffix_spec (Ipv6Address.mk 0xfe800000 0 0 1)
    (Ipv6Address.mk 0x20010db8 0x00010002 0 0) 64 (by decide)⟩

/-! ## Ipv6Address: scopes -/

/-- The test of `getScope` for a link-local address reads the first 10 bits. -/
theorem and_link_mask_iff (d : Nat) (hd : d < 2 ^ 32) :
    d &&& LINK_LOCAL_MASK = LINK_LOCAL_PREFIX ↔ d / 2 ^ 22 = 0b1111111010 := by
  have e : LINK_LOCAL_MASK = 2 ^ 32 - 2 ^ 22 := by decide
  rw [e, and_two_pow_32_sub d 22 hd (by norm_num)]
  unfold LINK_LOCAL_PREFIX
  omega

/-- The test of `getScope` for a site-local address reads the first 10 bits. -/
theorem and_site_mask_iff (d : Nat) (hd : d < 2 ^ 32) :
    d &&& SITE_LOCAL_MASK = SITE_LOCAL_PREFIX ↔ d / 2 ^ 22 = 0b1111111011 := by
  have e : SITE_LOCAL_MASK = 2 ^ 32 - 2 ^ 22 := by decide
  rw [e, and_two_pow_32_sub d 22 hd (by norm_num)]
  unfold SITE_LOCAL_PREFIX
  omega

/-- The test of `getScope` for a multicast address reads the first 8 bits. -/
theorem and_multicast_mask_iff (d : Nat) (hd : d < 2 ^ 32) :
    d &&& MULTICAST_MASK = MULTICAST_PREFIX ↔ d / 2 ^ 24 = 0b11111111 := by
  have e : MULTICAST_MASK = 2 ^ 32 - 2 ^ 24 := by decide
  rw [e, and_two_pow_32_sub d 24 hd (by norm_num)]
  unfold MULTICAST_PREFIX
  omega

/-- The first bits of an address of 32-bit words are the first bits of `d[0]`. -/
theorem Ipv6Address.toNat_div (a : Ipv6Address) (ha : a.InRange) :
    a.toNat / 2 ^ 118 = a.d0 / 2 ^ 22 ∧ a.toNat / 2 ^ 120 = a.d0 / 2 ^ 24 := by
  rcases ha with ⟨h0, h1, h2, h3⟩
  unfold Ipv6Address.toNat
  constructor <;> omega

/-- `getScope` answers MULTICAST exactly when the multicast test succeeds. -/
theorem Ipv6Address.getScope_multicast_iff (a : Ipv6Address) (ha : a.InRange) :
    a.getScope = Scope.MULTICAST ↔ a.d0 &&& MULTICAST_MASK = MULTICAST_PREFIX := by
  have hL := and_link_mask_iff a.d0 ha.1
  have hS := and_site_mask_iff a.d0 ha.1
  have hM := and_multicast_mask_iff a.d0 ha.1
  simp only [Ipv6Address.getScope, hL, hS, hM]
  split_ifs <;> simp_all <;> omega

/-- C17: for an address of 32-bit words, `getScope` answers LINK exactly when
the first 10 bits are 1111111010, SITE exactly when they are 1111111011,
MULTICAST exactly when the first 8 bits are 11111111, UNSPECIFIED exactly for
the all-zero address, LOOPBACK exactly for `::1`, and GLOBAL in every other
case; the link and site masks keep exactly the 10 leading bits; and no two of
the five conditions hold together, so the order of the tests does not
matter. -/
theorem Ipv6Address.getScope_spec (a : Ipv6Address) (ha : a.InRange) :
    (a.getScope = Scope.LINK ↔ a.toNat / 2 ^ 118 = 0b1111111010) ∧
    (a.getScope = Scope.SITE ↔ a.toNat / 2 ^ 118 = 0b1111111011) ∧
    (a.getScope = Scope.MULTICAST ↔ a.toNat / 2 ^ 120 = 0b11111111) ∧
    (a.getScope = Scope.UNSPECIFIED ↔ a = ⟨0, 0, 0, 0⟩) ∧
    (a.getScope = Scope.LOOPBACK ↔ a = ⟨0, 0, 0, 1⟩) ∧
    (a.getScope = Scope.GLOBAL ↔
      a.toNat / 2 ^ 118 ≠ 0b1111111010 ∧ a.toNat / 2 ^ 118 ≠ 0b1111111011 ∧
      a.toNat / 2 ^ 120 ≠ 0b11111111 ∧ a ≠ ⟨0, 0, 0, 0⟩ ∧ a ≠ ⟨0, 0, 0, 1⟩) ∧
    LINK_LOCAL_MASK = 2 ^ 32 - 2 ^ 22 ∧ SITE_LOCAL_MASK = 2 ^ 32 - 2 ^ 22 ∧
    ¬ (a.toNat / 2 ^ 118 = 0b1111111010 ∧ a.toNat / 2 ^ 118 = 0b1111111011) ∧
    ¬ (a.toNat / 2 ^ 118 = 0b1111111010 ∧ a.toNat / 2 ^ 120 = 0b11111111) ∧
    ¬ (a.toNat / 2 ^ 118 = 0b1111111011 ∧ a.toNat / 2 ^ 120 = 0b11111111) ∧
    (a = ⟨0, 0, 0, 0⟩ ∨ a = ⟨0, 0, 0, 1⟩ →
      a.toNat / 2 ^ 118 ≠ 0b1111111010 ∧ a.toNat / 2 ^ 118 ≠ 0b1111111011 ∧
      a.toNat / 2 ^ 120 ≠ 0b11111111) ∧
    (Ipv6Address.mk 0 0 0 0 ≠ Ipv6Address.mk 0 0 0 1) := by
  obtain ⟨e1, e2⟩ := Ipv6Address.toNat_div a ha
  have hL := and_link_mask_iff a.d0 ha.1
  have hS := and_site_mask_iff a.d0 ha.1
  have hM := and_multicast_mask_iff a.d0 ha.1
  rw [e1, e2]
  obtain ⟨x0, x1, x2, x3⟩ := a
  simp only [Ipv6Address.getScope, hL, hS, hM, Ipv6Address.mk.injEq] at *
  refine ⟨?_, ?_, ?_, ?_, ?_, ?_, by decide, by decide, by omega, by omega, by omega, ?_,
    by decide⟩
  · split_ifs <;> simp_all
  · split_ifs <;> simp_all
  · split_ifs <;> simp_all <;> omega
  · split_ifs <;> simp_all <;> omega
  · split_ifs <;> simp_all <;> omega
  · split_ifs <;> simp_all
  · rintro (⟨rfl, -, -, -⟩ | ⟨rfl, -, -, -⟩) <;> decide

/-- Witness for C17: `fe80::1` is link-local, by its first 10 bits. -/
theorem Ipv6Address.getScope_spec_witness :
    (Ipv6Address.mk 0xfe800000 0 0 1).getScope = Scope.LINK ↔
      (Ipv6Address.mk 0xfe800000 0 0 1).toNat / 2 ^ 118 = 0b1111111010 :=
  (Ipv6Address.getScope_spec (Ipv6Address.mk 0xfe800000 0 0 1) (by decide)).1

/-- C18: for an address of 32-bit words, `getMulticastScope` raises the error
exactly when the first 8 bits are not 11111111, which is exactly when
`getScope` is not MULTICAST; for a multicast address it returns bits 16 to 19
of `d[0]`, a value from 0 to 15. -/
theorem Ipv6Address.getMulticastScope_spec (a : Ipv6Address) (ha : a.InRange) :
    (a.getMulticastScope = .error .raised ↔ a.toNat / 2 ^ 120 ≠ 0b11111111) ∧
    (a.getMulticastScope = .error .raised ↔ a.getScope ≠ Scope.MULTICAST) ∧
    (a.getScope = Scope.MULTICAST →
      a.getMulticastScope = .ok ((a.d0 / 2 ^ 16 % 2 ^ 4 : Nat) : Int) ∧
      ∀ i, i < 4 → (a.d0 / 2 ^ 16 % 2 ^ 4).testBit i = a.d0.testBit (16 + i)) ∧
    (∀ v, a.getMulticastScope = .ok v → 0 ≤ v ∧ v ≤ 15) := by
  have hscope := Ipv6Address.getScope_multicast_iff a ha
  obtain ⟨-, e2⟩ := Ipv6Address.toNat_div a ha
  have hM := and_multicast_mask_iff a.d0 ha.1
  have hval : (a.d0 >>> 16) &&& 0x0F = a.d0 / 2 ^ 16 % 2 ^ 4 := by
    have e : (0x0F : Nat) = 2 ^ 4 - 1 := by norm_num
    rw [e, Nat.and_pow_two_sub_one_eq_mod, Nat.shiftRight_eq_div_pow]
  have herr : a.getMulticastScope = .error .raised
      ↔ ¬ (a.d0 &&& MULTICAST_MASK = MULTICAST_PREFIX) := by
    unfold Ipv6Address.getMulticastScope
    split_ifs with h <;> simp_all
  refine ⟨?_, ?_, ?_, ?_⟩
  · rw [herr, e2, hM]
  · rw [herr, Ne, hscope]
  · intro hs
    have hm : a.d0 &&& MULTICAST_MASK = MULTICAST_PREFIX := hscope.mp hs
    constructor
    · unfold Ipv6Address.getMulticastScope
      simp [hm, hval]
    · intro i hi
      rw [Nat.testBit_mod_two_pow, ← Nat.shiftRight_eq_div_pow, Nat.testBit_shiftRight]
      simp [hi]
  · intro v hv
    unfold Ipv6Address.getMulticastScope at hv
    split_ifs at hv with h
    simp only [Except.ok.injEq] at hv
    rw [← hv, hval]
    have : a.d0 / 2 ^ 16 % 2 ^ 4 < 2 ^ 4 := Nat.mod_lt _ (by norm_num)
    omega

/-- Witness for C18: `ff05::2` has multicast scope 5. -/
theorem Ipv6Address.getMulticastScope_spec_witness :
    (Ipv6Address.mk 0xff050000 0 0 2).getMulticastScope = .ok 5 ∧
    ((Ipv6Address.mk 0xff050000 0 0 2).getMulticastScope = .error .raised ↔
      (Ipv6Address.mk 0xff050000 0 0 2).getScope ≠ Scope.MULTICAST) :=
  ⟨((Ipv6Address.getMulticastScope_spec (Ipv6Address.mk 0xff050000 0 0 2) (by decide)).2.2.1
      (by decide)).1,
   (Ipv6Address.getMulticastScope_spec (Ipv6Address.mk 0xff050000 0 0 2) (by decide)).2.1⟩

/-! ## strtoul: what a conversion depends on -/

/-- The digit loop reads a block of digits and stops at the first character
that is none; the block gives the same value in front of any such stop. -/
theorem strtoulDigits_split (base : Nat) (cs : List Char) :
    ∀ (acc v : Nat) (e : List Char), strtoulDigits base cs acc = (v, e) →
      ∃ ds, cs = ds ++ e ∧ (∀ c ∈ ds, isDigitOf base c = true) ∧
        ∀ rest : List Char, (∀ c, rest.head? = some c → isDigitOf base c = false) →
          strtoulDigits base (ds ++ rest) acc = (v, rest) := by
  induction cs with
  | nil =>
    intro acc v e h
    simp only [strtoulDigits, Prod.mk.injEq] at h
    obtain ⟨rfl, rfl⟩ := h
    refine ⟨[], rfl, by simp, fun rest hrest => ?_⟩
    cases rest with
    | nil => rfl
    | cons c r => simp [strtoulDigits, hrest c rfl]
  | cons c cs ih =>
    intro acc v e h
    by_cases hc : isDigitOf base c = true
    · simp only [strtoulDigits, hc, if_true] at h
      obtain ⟨ds, h1, h2, h3⟩ := ih _ v e h
      refine ⟨c :: ds, by rw [h1]; rfl, ?_, fun rest hrest => ?_⟩
      · intro x hx
        rcases List.mem_cons.mp hx with rfl | hx
        · exact hc
        · exact h2 x hx
      · simp only [List.cons_append, strtoulDigits, hc, if_true]
        exact h3 rest hrest
    · simp only [strtoulDigits, hc, Bool.false_eq_true, if_false, Prod.mk.injEq] at h
      obtain ⟨rfl, rfl⟩ := h
      refine ⟨[], rfl, by simp, fun rest hrest => ?_⟩
      cases rest with
      | nil => rfl
      | cons d r => simp [strtoulDigits, hrest d rfl]

/-- Skipping white space: the skipped part is skipped again in front of any
text with the same first character. -/
theorem dropWhile_isspace_replace (s : List Char) (h : s.dropWhile isspace ≠ []) :
    ∃ pre, s = pre ++ s.dropWhile isspace ∧
      ∀ y : List Char, y.head? = (s.dropWhile isspace).head? →
        (pre ++ y).dropWhile isspace = y := by
  induction s with
  | nil => simp at h
  | cons c cs ih =>
    by_cases hc : isspace c = true
    · have e : (c :: cs).dropWhile isspace = cs.dropWhile isspace := by
        simp [List.dropWhile, hc]
      rw [e] at h ⊢
      obtain ⟨pre, h1, h2⟩ := ih h
      refine ⟨c :: pre, by rw [List.cons_append, ← h1], fun y hy => ?_⟩
      rw [List.cons_append, List.dropWhile_cons_of_pos hc]
      exact h2 y hy
    · have e : (c :: cs).dropWhile isspace = c :: cs := by simp [List.dropWhile, hc]
      rw [e]
      refine ⟨[], rfl, fun y hy => ?_⟩
      cases y with
      | nil => simp at hy
      | cons d ds =>
        simp only [List.head?_cons, Option.some.injEq] at hy
        subst hy
        simp [List.dropWhile, hc]

/-- Reading the sign: the sign is read again in front of any text with the
same first character. -/
theorem strtoulSign_replace (s : List Char) (h : (strtoulSign s).2 ≠ []) :
    ∃ pre, s = pre ++ (strtoulSign s).2 ∧
      ∀ y : List Char, y.head? = (strtoulSign s).2.head? →
        strtoulSign (pre ++ y) = ((strtoulSign s).1, y) := by
  cases s with
  | nil => simp [strtoulSign] at h
  | cons c t =>
    by_cases h1 : c = '-'
    · subst h1
      exact ⟨['-'], by simp [strtoulSign], fun y _ => by simp [strtoulSign]⟩
    · by_cases h2 : c = '+'
      · subst h2
        exact ⟨['+'], by simp [strtoulSign], fun y _ => by simp [strtoulSign]⟩
      · refine ⟨[], by simp [strtoulSign, h1, h2], fun y hy => ?_⟩
        simp only [strtoulSign, h1, h2, if_false, List.head?_cons] at hy ⊢
        cases y with
        | nil => simp at hy
        | cons d ds =>
          simp only [List.head?_cons, Option.some.injEq] at hy
          subst hy
          simp [strtoulSign, h1, h2]

/-- The letters `x` and `X` and the colon are no hexadecimal digits. -/
theorem isDigitOf_16_x : isDigitOf 16 'x' = false ∧ isDigitOf 16 'X' = false ∧
    isDigitOf 16 ':' = false := by
  decide

/-- The `0x` test of `strtoul` on a text of three characters or more. -/
theorem strtoulHexPrefix_cons3 (z x h : Char) (t : List Char) :
    strtoulHexPrefix 16 (z :: x :: h :: t)
      = if z = '0' ∧ (x = 'x' ∨ x = 'X') ∧ isDigitOf 16 h = true then h :: t
        else z :: x :: h :: t := by
  simp [strtoulHexPrefix]

/-- Digits in front of a stop never look like `0x` with a digit after it. -/
theorem strtoulHexPrefix_digits (c : Char) (ds1 : List Char)
    (hdig : ∀ x ∈ c :: ds1, isDigitOf 16 x = true) (rest : List Char) (hrest : IsStop rest) :
    strtoulHexPrefix 16 (c :: ds1 ++ rest) = c :: ds1 ++ rest := by
  cases ds1 with
  | nil =>
    rcases hrest with rfl | hr
    · rfl
    · cases rest with
      | nil => rfl
      | cons r0 rs =>
        simp only [List.head?_cons, Option.some.injEq] at hr
        subst hr
        cases rs with
        | nil => rfl
        | cons r1 rs1 => simp [strtoulHexPrefix]
  | cons d ds2 =>
    have hd : isDigitOf 16 d = true := hdig d (by simp)
    have hx : d ≠ 'x' := fun hx => by rw [hx, isDigitOf_16_x.1] at hd; cases hd
    have hX : d ≠ 'X' := fun hx => by rw [hx, isDigitOf_16_x.2.1] at hd; cases hd
    cases hl : ds2 ++ rest with
    | nil => simp [strtoulHexPrefix, hl]
    | cons y ys => simp [strtoulHexPrefix, hl, hx, hX]

/-- Skipping `0x`: it is skipped again when the digits are followed by a stop. -/
theorem strtoulHexPrefix_replace (s ds e : List Char) (hne : ds ≠ [])
    (hdig : ∀ x ∈ ds, isDigitOf 16 x = true) (h : strtoulHexPrefix 16 s = ds ++ e) :
    ∃ pre, s = pre ++ (ds ++ e) ∧
      ∀ rest : List Char, IsStop rest → strtoulHexPrefix 16 (pre ++ (ds ++ rest)) = ds ++ rest := by
  obtain ⟨c, ds1, rfl⟩ := List.exists_cons_of_ne_nil hne
  have hc : isDigitOf 16 c = true := hdig c (List.mem_cons_self _ _)
  have hplain := strtoulHexPrefix_digits c ds1 hdig
  cases s with
  | nil => simp [strtoulHexPrefix] at h
  | cons z s1 =>
    cases s1 with
    | nil =>
      simp only [strtoulHexPrefix] at h
      exact ⟨[], by simp [h], fun rest hrest => by simpa using hplain rest hrest⟩
    | cons x s2 =>
      cases s2 with
      | nil =>
        simp only [strtoulHexPrefix] at h
        exact ⟨[], by simp [h], fun rest hrest => by simpa using hplain rest hrest⟩
      | cons hh t =>
        by_cases hcond : (z = '0' ∧ (x = 'x' ∨ x = 'X') ∧ isDigitOf 16 hh = true)
        · rw [strtoulHexPrefix_cons3, if_pos hcond] at h
          have h0 : hh = c := by
            have := congrArg List.head? h
            simpa using this
          have ht : t = ds1 ++ e := by
            have := congrArg List.tail h
            simpa using this
          subst h0
          refine ⟨[z, x], by simp [ht], fun rest _ => ?_⟩
          have : ([z, x] ++ (hh :: ds1 ++ rest)) = z :: x :: hh :: (ds1 ++ rest) := by simp
          rw [this, strtoulHexPrefix_cons3, if_pos hcond]
          simp
        · rw [strtoulHexPrefix_cons3, if_neg hcond] at h
          exact ⟨[], by simp [h], fun rest hrest => by simpa using hplain rest hrest⟩

/-- The first character of a text with a non-empty front part is that of the
front part. -/
theorem head?_append_left (a y : List Char) (h : a ≠ []) : (a ++ y).head? = a.head? := by
  cases a with
  | nil => exact absurd rfl h
  | cons c cs => rfl

/-- The subject of `strtoul` in base 16 is its second component after the
three skipping steps. -/
theorem strtoulSubject_eq (s : List Char) :
    strtoulSubject s 16
      = ((strtoulSign (s.dropWhile isspace)).1,
         strtoulHexPrefix 16 (strtoulSign (s.dropWhile isspace)).2) := rfl

/-- The body of `strtoul` without its local names. -/
theorem strtoul_eq (s : List Char) (base : Nat) :
    strtoul s base
      = match (strtoulSubject s base).2 with
        | [] => (0, s)
        | c :: cs =>
          if isDigitOf base c then
            (if (strtoulDigits base (c :: cs) 0).1 > ULONG_MAX then ULONG_MAX
             else if (strtoulSubject s base).1 then
               (2 ^ 64 - (strtoulDigits base (c :: cs) 0).1) % 2 ^ 64
             else (strtoulDigits base (c :: cs) 0).1,
             (strtoulDigits base (c :: cs) 0).2)
          else (0, s) := rfl

/-- A conversion of `strtoul` in base 16 reads a non-empty front part of the
text, and that front part alone decides the value: in front of the end of the
string or of a colon it converts to the same value and stops there. -/
theorem strtoul_token (s : List Char) (v : Nat) (e : List Char)
    (h : strtoul s 16 = (v, e)) (hne : e ≠ s) :
    ∃ t, t ≠ [] ∧ s = t ++ e ∧ ∀ rest : List Char, IsStop rest →
      strtoul (t ++ rest) 16 = (v, rest) := by
  rw [strtoul_eq] at h
  cases hs : (strtoulSubject s 16).2 with
  | nil =>
    rw [hs] at h
    simp only [Prod.mk.injEq] at h
    exact absurd h.2.symm hne
  | cons c cs =>
    rw [hs] at h
    simp only at h
    by_cases hd : isDigitOf 16 c = true
    · simp only [hd, if_true, Prod.mk.injEq] at h
      obtain ⟨hv, he⟩ := h
      have hstep : strtoulDigits 16 (c :: cs) 0
          = strtoulDigits 16 cs (0 * 16 + (digitValue c).getD 0) := by
        simp [strtoulDigits, hd]
      rw [hstep] at hv he
      obtain ⟨ds1, hcs, hdig1, hreplay⟩ :=
        strtoulDigits_split 16 cs (0 * 16 + (digitValue c).getD 0) _ _ rfl
      rw [he] at hcs
      have hdig : ∀ x ∈ c :: ds1, isDigitOf 16 x = true := by
        intro x hx
        rcases List.mem_cons.mp hx with rfl | hx
        · exact hd
        · exact hdig1 x hx
      have hsubj : strtoulHexPrefix 16 (strtoulSign (s.dropWhile isspace)).2
          = (c :: ds1) ++ e := by
        have := hs
        rw [strtoulSubject_eq] at this
        simp only at this
        rw [this, hcs]
        rfl
      obtain ⟨px, hpx, r3⟩ :=
        strtoulHexPrefix_replace _ (c :: ds1) e (by simp) hdig hsubj
      have hsg : (strtoulSign (s.dropWhile isspace)).2 ≠ [] := by
        rw [hpx]
        simp
      obtain ⟨p2, hp2, r2⟩ := strtoulSign_replace _ hsg
      have hs1 : s.dropWhile isspace ≠ [] := by
        rw [hp2, hpx]
        simp
      obtain ⟨p1, hp1, r1⟩ := dropWhile_isspace_replace s hs1
      refine ⟨p1 ++ (p2 ++ (px ++ (c :: ds1))), by simp, ?_, fun rest hrest => ?_⟩
      · conv_lhs => rw [hp1, hp2, hpx]
        simp
      · have hstop : ∀ x, rest.head? = some x → isDigitOf 16 x = false := by
          intro x hx
          rcases hrest with rfl | hr
          · simp at hx
          · rw [hr] at hx
            simp only [Option.some.injEq] at hx
            rw [← hx]
            exact isDigitOf_16_x.2.2
        have e1 : p1 ++ (p2 ++ (px ++ (c :: ds1))) ++ rest
            = p1 ++ (p2 ++ (px ++ (c :: ds1 ++ rest))) := by simp
        have hhead2 : (px ++ (c :: ds1 ++ rest)).head?
            = (strtoulSign (s.dropWhile isspace)).2.head? := by
          rw [hpx]
          have a1 : px ++ (c :: ds1 ++ rest) = (px ++ (c :: ds1)) ++ rest := by simp
          have a2 : px ++ (c :: ds1 ++ e) = (px ++ (c :: ds1)) ++ e := by simp
          rw [a1, a2, head?_append_left (px ++ (c :: ds1)) rest (by simp),
            head?_append_left (px ++ (c :: ds1)) e (by simp)]
        have hhead1 : (p2 ++ (px ++ (c :: ds1 ++ rest))).head?
            = (s.dropWhile isspace).head? := by
          rw [hp2, hpx]
          have a1 : p2 ++ (px ++ (c :: ds1 ++ rest)) = (p2 ++ (px ++ (c :: ds1))) ++ rest := by
            simp
          have a2 : p2 ++ (px ++ (c :: ds1 ++ e)) = (p2 ++ (px ++ (c :: ds1))) ++ e := by simp
          rw [a1, a2, head?_append_left (p2 ++ (px ++ (c :: ds1))) rest (by simp),
            head?_append_left (p2 ++ (px ++ (c :: ds1))) e (by simp)]
        have hsub : strtoulSubject (p1 ++ (p2 ++ (px ++ (c :: ds1 ++ rest)))) 16
            = ((strtoulSign (s.dropWhile isspace)).1, c :: (ds1 ++ rest)) := by
          rw [strtoulSubject_eq, r1 _ hhead1, r2 _ hhead2, r3 rest hrest]
          rfl
        have hsign : (strtoulSubject s 16).1 = (strtoulSign (s.dropWhile isspace)).1 := rfl
        rw [e1, strtoul_eq, hsub]
        simp only [hd, if_true]
        have hstep2 : strtoulDigits 16 (c :: (ds1 ++ rest)) 0
            = strtoulDigits 16 (ds1 ++ rest) (0 * 16 + (digitValue c).getD 0) := by
          simp [strtoulDigits, hd]
        rw [hstep2, hreplay rest hstop, ← hv, hsign]
    · simp only [hd, Bool.false_eq_true, if_false, Prod.mk.injEq] at h
      exact absurd h.2.symm hne

/-- Nothing is converted at a colon or at the end of the string. -/
theorem strtoul_stop (rest : List Char) (h : IsStop rest) : strtoul rest 16 = (0, rest) := by
  rcases h with rfl | hr
  · rfl
  · cases rest with
    | nil => rfl
    | cons c r =>
      simp only [List.head?_cons, Option.some.injEq] at hr
      subst hr
      have hsp : (':' :: r).dropWhile isspace = ':' :: r := by
        rw [List.dropWhile_cons_of_neg]
        decide
      have hsg : strtoulSign (':' :: r) = (false, ':' :: r) := by
        simp [strtoulSign]
      have hpx : strtoulHexPrefix 16 (':' :: r) = ':' :: r := by
        cases r with
        | nil => rfl
        | cons a r1 =>
          cases r1 with
          | nil => rfl
          | cons b r2 => simp [strtoulHexPrefix]
      rw [strtoul_eq, strtoulSubject_eq, hsp, hsg]
      simp only [hpx]
      simp [isDigitOf_16_x.2.2]

/-- A group text converts to its value in front of a stop. -/
theorem IsGroupText.strtoul_append (t : List Char) (v : Nat) (ht : IsGroupText t v)
    (rest : List Char) (hrest : IsStop rest) : strtoul (t ++ rest) 16 = (v, rest) := by
  obtain ⟨hne, hconv, -⟩ := ht
  obtain ⟨t1, -, h1, h2⟩ := strtoul_token t v [] hconv (fun h => hne h.symm)
  have : t1 = t := by simpa using h1.symm
  rw [← this]
  exact h2 rest hrest

/-! ## parseGroups on colon-separated group texts -/

/-- One pass of the loop of `parseGroups`, without local names. -/
theorem parseGroupsLoop_succ (fuel : Nat) (s : List Char) (groups : List Nat) :
    parseGroupsLoop (fuel + 1) s groups
      = if (strtoul s 16).2 = s then (groups, if groups.length ≠ 0 then ':' :: s else s)
        else if (strtoul s 16).1 > 0xffff then (groups, s)
        else if (strtoul s 16).2.head? ≠ some ':' ∨ (groups ++ [(strtoul s 16).1]).length = 8
          then (groups ++ [(strtoul s 16).1], (strtoul s 16).2)
        else parseGroupsLoop fuel (strtoul s 16).2.tail (groups ++ [(strtoul s 16).1]) := rfl

/-- The loop of `parseGroups` stops at a colon that follows a colon, and
"unskips" the first one. -/
theorem parseGroupsLoop_stop (fuel : Nat) (r : List Char) (groups : List Nat)
    (hg : groups ≠ []) :
    parseGroupsLoop (fuel + 1) (':' :: r) groups = (groups, ':' :: ':' :: r) := by
  have h0 : groups.length ≠ 0 := fun h => hg (List.length_eq_zero.mp h)
  rw [parseGroupsLoop_succ, strtoul_stop (':' :: r) (Or.inr rfl)]
  simp [h0]

/-- The text after a sequence of group texts is a stop. -/
theorem isStop_sepTexts (ts : List (List Char)) (rest : List Char) (h : IsStop rest) :
    IsStop (sepTexts ts ++ rest) := by
  cases ts with
  | nil => simpa [sepTexts] using h
  | cons t ts => exact Or.inr rfl

/-- The loop of `parseGroups` reads colon-separated group texts that fit into
the eight places, up to the end of the string, up to a double colon, or up to
a colon when the eighth place has been filled. -/
theorem parseGroupsLoop_texts (ts : List (List Char)) :
    ∀ (vs : List Nat) (fuel : Nat) (acc : List Nat) (t0 : List Char) (v0 : Nat)
      (rest : List Char),
      IsGroupText t0 v0 → AreGroupTexts ts vs → acc.length + fuel = 8 →
      acc.length + 1 + ts.length ≤ 8 →
      (rest = [] ∨ (∃ r, rest = ':' :: ':' :: r) ∨
        (acc.length + 1 + ts.length = 8 ∧ rest.head? = some ':')) →
      parseGroupsLoop fuel (t0 ++ (sepTexts ts ++ rest)) acc = (acc ++ v0 :: vs, rest) := by
  induction ts with
  | nil =>
    intro vs fuel acc t0 v0 rest ht0 hts hfuel hlen hrest
    cases vs with
    | cons v vs => exact absurd hts (by simp [AreGroupTexts])
    | nil =>
      obtain ⟨f, rfl⟩ : ∃ f, fuel = f + 1 := ⟨fuel - 1, by simp at hlen; omega⟩
      have hstop : IsStop rest := by
        rcases hrest with rfl | ⟨r, rfl⟩ | ⟨-, h⟩
        · exact Or.inl rfl
        · exact Or.inr rfl
        · exact Or.inr h
      have hconv := IsGroupText.strtoul_append t0 v0 ht0 rest hstop
      have hne : rest ≠ t0 ++ rest := by
        intro h
        have := congrArg List.length h
        simp only [List.length_append] at this
        have : t0.length = 0 := by omega
        exact ht0.1 (List.length_eq_zero.mp this)
      have hv : ¬ v0 > 0xffff := Nat.not_lt.mpr ht0.2.2
      simp only [sepTexts, List.nil_append]
      rw [parseGroupsLoop_succ, hconv]
      simp only [hne, if_false, hv]
      rcases hrest with rfl | ⟨r, rfl⟩ | ⟨h8, h⟩
      · simp
      · by_cases h8 : (acc ++ [v0]).length = 8
        · simp [h8]
        · have hf : ∃ f1, f = f1 + 1 := ⟨f - 1, by simp at h8 hfuel; omega⟩
          obtain ⟨f1, rfl⟩ := hf
          simp only [List.head?_cons, ne_eq, not_true_eq_false, h8, or_self, if_false,
            List.tail_cons]
          exact parseGroupsLoop_stop f1 r (acc ++ [v0]) (by simp)
      · have h8 : (acc ++ [v0]).length = 8 := by simpa using h8
        simp [h8]
  | cons t ts ih =>
    intro vs fuel acc t0 v0 rest ht0 hts hfuel hlen hrest
    cases vs with
    | nil => exact absurd hts (by simp [AreGroupTexts])
    | cons v vs =>
      obtain ⟨ht, hts1⟩ : IsGroupText t v ∧ AreGroupTexts ts vs := by
        simpa [AreGroupTexts] using hts
      simp only [List.length_cons] at hlen
      obtain ⟨f, rfl⟩ : ∃ f, fuel = f + 1 := ⟨fuel - 1, by omega⟩
      have hstop : IsStop (sepTexts (t :: ts) ++ rest) := Or.inr rfl
      have hconv := IsGroupText.strtoul_append t0 v0 ht0 _ hstop
      have hne : sepTexts (t :: ts) ++ rest ≠ t0 ++ (sepTexts (t :: ts) ++ rest) := by
        intro h
        have := congrArg List.length h
        simp only [List.length_append] at this
        have : t0.length = 0 := by omega
        exact ht0.1 (List.length_eq_zero.mp this)
      have hv : ¬ v0 > 0xffff := Nat.not_lt.mpr ht0.2.2
      have h8 : ¬ (acc ++ [v0]).length = 8 := by
        simp only [List.length_append, List.length_singleton]
        omega
      rw [parseGroupsLoop_succ, hconv]
      simp only [hne, if_false, hv]
      have hhead : (sepTexts (t :: ts) ++ rest).head? = some ':' := rfl
      simp only [hhead, ne_eq, not_true_eq_false, h8, or_self, if_false]
      have htail : (sepTexts (t :: ts) ++ rest).tail = t ++ (sepTexts ts ++ rest) := by
        simp [sepTexts]
      rw [htail]
      have := ih vs f (acc ++ [v0]) t v rest ht hts1
        (by simp only [List.length_append, List.length_singleton]; omega)
        (by simp only [List.length_append, List.length_singleton]; omega)
        (by
          rcases hrest with h | h | ⟨h1, h2⟩
          · exact Or.inl h
          · exact Or.inr (Or.inl h)
          · refine Or.inr (Or.inr ⟨?_, h2⟩)
            simp only [List.length_append, List.length_singleton]
            simp only [List.length_cons] at h1
            omega)
      rw [this]
      simp

/-! ## The text of a 16-bit group -/

/-- A hexadecimal digit character is a digit with its value, and is none of
the characters that `strtoul` or `parseGroups` treat specially. -/
theorem hexDigit_spec (d : Nat) (hd : d < 16) :
    digitValue (hexDigit d) = some d ∧ isDigitOf 16 (hexDigit d) = true ∧
    isspace (hexDigit d) = false ∧ hexDigit d ≠ '-' ∧ hexDigit d ≠ '+' ∧
    hexDigit d ≠ ':' ∧ hexDigit d ≠ '<' := by
  interval_cases d <;> decide

/-- The digits are written in front of the accumulator. -/
theorem toHexAux_append (fuel : Nat) :
    ∀ (n : Nat) (acc : List Char), toHexAux fuel n acc = toHexAux fuel n [] ++ acc := by
  induction fuel with
  | zero => intro n acc; rfl
  | succ f ih =>
    intro n acc
    by_cases h : n < 16
    · simp [toHexAux, h]
    · simp only [toHexAux, h, if_false]
      rw [ih (n / 16) (hexDigit (n % 16) :: acc), ih (n / 16) [hexDigit (n % 16)]]
      simp

/-- Every character written is a hexadecimal digit character. -/
theorem toHexAux_digits (fuel : Nat) :
    ∀ (n : Nat) (c : Char), c ∈ toHexAux fuel n [] → ∃ d, d < 16 ∧ c = hexDigit d := by
  induction fuel with
  | zero => intro n c hc; simp [toHexAux] at hc
  | succ f ih =>
    intro n c hc
    by_cases h : n < 16
    · simp only [toHexAux, h, if_true, List.mem_singleton] at hc
      exact ⟨n, h, hc⟩
    · simp only [toHexAux, h, if_false] at hc
      rw [toHexAux_append] at hc
      rcases List.mem_append.mp hc with hc | hc
      · exact ih _ c hc
      · simp only [List.mem_singleton] at hc
        exact ⟨n % 16, Nat.mod_lt _ (by norm_num), hc⟩

/-- With at least one pass something is written. -/
theorem toHexAux_ne_nil (fuel n : Nat) : toHexAux (fuel + 1) n [] ≠ [] := by
  by_cases h : n < 16
  · simp [toHexAux, h]
  · simp only [toHexAux, h, if_false]
    rw [toHexAux_append]
    simp

/-- The digit loop of `strtoul` reads back the number that was written, when
the bound on the number of digits was large enough. -/
theorem strtoulDigits_toHexAux (fuel : Nat) :
    ∀ (n : Nat) (acc : List Char), n < 16 ^ fuel →
      strtoulDigits 16 (toHexAux fuel n acc) 0 = strtoulDigits 16 acc n := by
  induction fuel with
  | zero =>
    intro n acc hn
    have : n = 0 := by simpa using hn
    subst this
    rfl
  | succ f ih =>
    intro n acc hn
    by_cases h : n < 16
    · obtain ⟨h1, h2, -⟩ := hexDigit_spec n h
      simp [toHexAux, h, strtoulDigits, h1, h2]
    · have hlt : n / 16 < 16 ^ f := by
        rw [Nat.div_lt_iff_lt_mul (by norm_num)]
        rw [pow_succ] at hn
        exact hn
      obtain ⟨h1, h2, -⟩ := hexDigit_spec (n % 16) (Nat.mod_lt _ (by norm_num))
      simp only [toHexAux, h, if_false]
      rw [ih (n / 16) _ hlt]
      simp only [strtoulDigits, h2, if_true, h1, Option.getD_some]
      rw [Nat.div_add_mod']

/-- The text that `std::hex` prints for a 16-bit value is a group text with
that value. -/
theorem isGroupText_toHex (n : Nat) (hn : n ≤ 0xffff) : IsGroupText (toHex n) n := by
  have hne : toHex n ≠ [] := toHexAux_ne_nil 3 n
  obtain ⟨c, cs, hcs⟩ := List.exists_cons_of_ne_nil hne
  have hall : ∀ x ∈ c :: cs, ∃ d, d < 16 ∧ x = hexDigit d := by
    intro x hx
    rw [← hcs] at hx
    exact toHexAux_digits 4 n x hx
  have hdig : ∀ x ∈ c :: cs, isDigitOf 16 x = true := by
    intro x hx
    obtain ⟨d, hd, rfl⟩ := hall x hx
    exact (hexDigit_spec d hd).2.1
  obtain ⟨d0, hd0, hc0⟩ := hall c (List.mem_cons_self _ _)
  obtain ⟨-, hdg, hsp, hm, hp, -, -⟩ := hexDigit_spec d0 hd0
  rw [← hc0] at hdg hsp hm hp
  have hdigits : strtoulDigits 16 (c :: cs) 0 = (n, []) := by
    rw [← hcs]
    have := strtoulDigits_toHexAux 4 n [] (by norm_num; omega)
    simpa [toHex, strtoulDigits] using this
  have hsubj : strtoulSubject (c :: cs) 16 = (false, c :: cs) := by
    have h1 : (c :: cs).dropWhile isspace = c :: cs := by
      rw [List.dropWhile_cons_of_neg]
      simp [hsp]
    have h2 : strtoulSign (c :: cs) = (false, c :: cs) := by
      simp [strtoulSign, hm, hp]
    have h3 := strtoulHexPrefix_digits c cs hdig [] (Or.inl rfl)
    simp only [List.append_nil] at h3
    rw [strtoulSubject_eq, h1, h2]
    simp only [h3]
  refine ⟨hne, ?_, hn⟩
  rw [hcs, strtoul_eq, hsubj]
  simp only [hdg, if_true, hdigits]
  have : ¬ n > ULONG_MAX := by
    unfold ULONG_MAX
    omega
  simp [this]

/-- Group texts and their values are equally many. -/
theorem AreGroupTexts.length_eq (ts : List (List Char)) :
    ∀ vs : List Nat, AreGroupTexts ts vs → ts.length = vs.length := by
  induction ts with
  | nil =>
    intro vs h
    cases vs with
    | nil => rfl
    | cons v vs => exact absurd h (by simp [AreGroupTexts])
  | cons t ts ih =>
    intro vs h
    cases vs with
    | nil => exact absurd h (by simp [AreGroupTexts])
    | cons v vs =>
      have h1 : IsGroupText t v ∧ AreGroupTexts ts vs := by simpa [AreGroupTexts] using h
      simp [ih vs h1.2]

/-- `parseGroups` reads at most eight colon-separated group texts up to the end
of the string or up to a double colon. -/
theorem parseGroups_joinTexts (ts : List (List Char)) (vs : List Nat) (rest : List Char)
    (hts : AreGroupTexts ts vs) (hlen : ts.length ≤ 8)
    (hrest : rest = [] ∨ ∃ r, rest = ':' :: ':' :: r) :
    parseGroups (joinTexts ts ++ rest) = (vs, rest) := by
  cases ts with
  | nil =>
    cases vs with
    | cons v vs => exact absurd hts (by simp [AreGroupTexts])
    | nil =>
      have hstop : IsStop rest := by
        rcases hrest with rfl | ⟨r, rfl⟩
        · exact Or.inl rfl
        · exact Or.inr rfl
      simp only [joinTexts, List.nil_append, parseGroups]
      rw [parseGroupsLoop_succ, strtoul_stop rest hstop]
      simp
  | cons t ts =>
    cases vs with
    | nil => exact absurd hts (by simp [AreGroupTexts])
    | cons v vs =>
      have h1 : IsGroupText t v ∧ AreGroupTexts ts vs := by simpa [AreGroupTexts] using hts
      simp only [List.length_cons] at hlen
      have := parseGroupsLoop_texts ts vs 8 [] t v rest h1.1 h1.2 (by simp)
        (by simp only [List.length_nil]; omega)
        (by
          rcases hrest with h | h
          · exact Or.inl h
          · exact Or.inr (Or.inl h))
      simpa [parseGroups, joinTexts] using this

/-- A text that holds a colon is not `<unspec>`. -/
theorem ne_unspecText_of_colon (s : List Char) (h : ':' ∈ s) : s ≠ unspecText := by
  intro hs
  rw [hs] at h
  revert h
  decide

/-- A non-empty sequence of texts after the first holds a colon. -/
theorem colon_mem_sepTexts (t : List Char) (ts : List (List Char)) :
    ':' ∈ sepTexts (t :: ts) := by
  simp [sepTexts]

/-- `doTryParse` accepts eight colon-separated group texts. -/
theorem Ipv6Address.doTryParse_eight (b : Ipv6Address) (ts : List (List Char))
    (vs : List Nat) (hts : AreGroupTexts ts vs) (hlen : ts.length = 8) :
    b.doTryParse (joinTexts ts) = (true, Ipv6Address.ofGroups vs, []) := by
  have hp := parseGroups_joinTexts ts vs [] hts (by omega) (Or.inl rfl)
  simp only [List.append_nil] at hp
  have hvs : vs.length = 8 := by rw [← AreGroupTexts.length_eq ts vs hts, hlen]
  have hne : joinTexts ts ≠ unspecText := by
    apply ne_unspecText_of_colon
    match ts, hlen with
    | t0 :: t1 :: ts2, _ =>
      simp only [joinTexts]
      exact List.mem_append_right _ (colon_mem_sepTexts t1 ts2)
  unfold Ipv6Address.doTryParse
  rw [if_neg hne, hp]
  simp [hvs]

/-- `doTryParse` accepts group texts, a double colon, and group texts, when at
most eight groups are written. -/
theorem Ipv6Address.doTryParse_gap (b : Ipv6Address) (ps qs : List (List Char))
    (pv qv : List Nat) (hps : AreGroupTexts ps pv) (hqs : AreGroupTexts qs qv)
    (hlen : ps.length + qs.length ≤ 8) :
    b.doTryParse (joinTexts ps ++ ':' :: ':' :: joinTexts qs)
      = (true, Ipv6Address.ofGroups (Ipv6Address.mergeGroups pv qv), []) := by
  have hp := parseGroups_joinTexts ps pv (':' :: ':' :: joinTexts qs) hps (by omega)
    (Or.inr ⟨_, rfl⟩)
  have hq := parseGroups_joinTexts qs qv [] hqs (by omega) (Or.inl rfl)
  simp only [List.append_nil] at hq
  have hpl := AreGroupTexts.length_eq ps pv hps
  have hql := AreGroupTexts.length_eq qs qv hqs
  have hne : joinTexts ps ++ ':' :: ':' :: joinTexts qs ≠ unspecText := by
    apply ne_unspecText_of_colon
    simp
  unfold Ipv6Address.doTryParse
  rw [if_neg hne, hp]
  simp only [hq]
  have : ¬ pv.length + qv.length > 8 := by omega
  simp [this]

/-! ## The gap that `str` prints as a double colon -/

/-- One pass of the loop of `findGap` keeps the invariant. -/
theorem Ipv6Address.findGapStep_inv (groups : List Nat) (i : Nat) (st : Int × Int × Int)
    (h : GapInv groups i st) : GapInv groups (i + 1) (Ipv6Address.findGapStep groups st i) := by
  obtain ⟨start, end_, beg⟩ := st
  obtain ⟨hse, hbeg⟩ := h
  simp only at hse hbeg
  have hse1 : (start = 0 ∧ end_ = 0) ∨
      (0 ≤ start ∧ start < end_ ∧ end_ ≤ ((i + 1 : Nat) : Int) ∧
        ∀ k : Nat, start ≤ (k : Int) → (k : Int) < end_ → groups.getD k 0 = 0) := by
    rcases hse with h | ⟨h1, h2, h3, h4⟩
    · exact Or.inl h
    · exact Or.inr ⟨h1, h2, by push_cast; omega, h4⟩
  unfold Ipv6Address.findGapStep
  simp only
  by_cases hz : groups.getD i 0 = 0
  · by_cases hb : beg = -1
    · rw [if_pos ⟨hb, hz⟩]
      dsimp only [GapInv]
      refine ⟨hse1, Or.inr ⟨by omega, by push_cast; omega, fun k hk1 hk2 => ?_⟩⟩
      have : k = i := by omega
      rw [this]
      exact hz
    · rw [if_neg (fun h => hb h.1), if_neg (fun h => h.2 hz)]
      dsimp only [GapInv]
      refine ⟨hse1, ?_⟩
      rcases hbeg with h | ⟨h1, h2, h3⟩
      · exact absurd h hb
      · refine Or.inr ⟨h1, by push_cast; omega, fun k hk1 hk2 => ?_⟩
        by_cases hki : k < i
        · exact h3 k hk1 hki
        · have : k = i := by omega
          rw [this]
          exact hz
  · by_cases hb : beg = -1
    · rw [if_neg (fun h => hz h.2), if_neg (fun h => h.1 hb)]
      dsimp only [GapInv]
      exact ⟨hse1, Or.inl hb⟩
    · rw [if_neg (fun h => hb h.1), if_pos ⟨hb, hz⟩]
      rcases hbeg with h | ⟨h1, h2, h3⟩
      · exact absurd h hb
      · by_cases hc : (i : Int) - beg ≥ 2 ∧ (i : Int) - beg > end_ - start
        · rw [if_pos hc]
          dsimp only [GapInv]
          refine ⟨Or.inr ⟨h1, by omega, by push_cast; omega, fun k hk1 hk2 => ?_⟩, Or.inl rfl⟩
          exact h3 k hk1 (by omega)
        · rw [if_neg hc]
          dsimp only [GapInv]
          exact ⟨hse1, Or.inl rfl⟩

/-- `findGap` returns `start = end = 0`, or the bounds of a non-empty range of
zero groups. -/
theorem Ipv6Address.findGap_spec (groups : List Nat) :
    ∃ s e : Nat, Ipv6Address.findGap groups = ((s : Int), (e : Int)) ∧
      ((s = 0 ∧ e = 0) ∨
        (s < e ∧ e ≤ 8 ∧ ∀ k : Nat, s ≤ k → k < e → groups.getD k 0 = 0)) := by
  have h0 : GapInv groups 0 (0, 0, -1) := ⟨Or.inl ⟨rfl, rfl⟩, Or.inl rfl⟩
  have h1 := Ipv6Address.findGapStep_inv groups 0 _ h0
  have h2 := Ipv6Address.findGapStep_inv groups 1 _ h1
  have h3 := Ipv6Address.findGapStep_inv groups 2 _ h2
  have h4 := Ipv6Address.findGapStep_inv groups 3 _ h3
  have h5 := Ipv6Address.findGapStep_inv groups 4 _ h4
  have h6 := Ipv6Address.findGapStep_inv groups 5 _ h5
  have h7 := Ipv6Address.findGapStep_inv groups 6 _ h6
  have h8 := Ipv6Address.findGapStep_inv groups 7 _ h7
  have hfold : (List.range 8).foldl (Ipv6Address.findGapStep groups) (0, 0, -1)
      = Ipv6Address.findGapStep groups (Ipv6Address.findGapStep groups
          (Ipv6Address.findGapStep groups (Ipv6Address.findGapStep groups
            (Ipv6Address.findGapStep groups (Ipv6Address.findGapStep groups
              (Ipv6Address.findGapStep groups (Ipv6Address.findGapStep groups (0, 0, -1) 0) 1)
              2) 3) 4) 5) 6) 7 := rfl
  unfold Ipv6Address.findGap
  simp only
  rw [hfold]
  generalize Ipv6Address.findGapStep groups (Ipv6Address.findGapStep groups
          (Ipv6Address.findGapStep groups (Ipv6Address.findGapStep groups
            (Ipv6Address.findGapStep groups (Ipv6Address.findGapStep groups
              (Ipv6Address.findGapStep groups (Ipv6Address.findGapStep groups (0, 0, -1) 0) 1)
              2) 3) 4) 5) 6) 7 = st at h8
  obtain ⟨start, end_, beg⟩ := st
  obtain ⟨hse, hbeg⟩ := h8
  simp only at hse hbeg ⊢
  by_cases hc : beg ≠ -1 ∧ beg ≤ 6 ∧ 8 - beg > end_ - start
  · rw [if_pos hc]
    rcases hbeg with h | ⟨h1, h2, h3⟩
    · exact absurd h hc.1
    · refine ⟨beg.toNat, 8, ?_, Or.inr ⟨by omega, le_refl _, fun k hk1 hk2 => ?_⟩⟩
      · rw [Int.toNat_of_nonneg h1]
        rfl
      · exact h3 k (by omega) hk2
  · rw [if_neg hc]
    rcases hse with ⟨h1, h2⟩ | ⟨h1, h2, h3, h4⟩
    · exact ⟨0, 0, by rw [h1, h2]; rfl, Or.inl ⟨rfl, rfl⟩⟩
    · refine ⟨start.toNat, end_.toNat, ?_, Or.inr ⟨by omega, by omega, fun k hk1 hk2 => ?_⟩⟩
      · rw [Int.toNat_of_nonneg h1, Int.toNat_of_nonneg (by omega)]
      · exact h4 k (by omega) (by omega)

/-! ## Printing and reading back -/

/-- After the first group of its loop, `printGroups` writes each group with a
colon in front. -/
theorem Ipv6Address.printGroups_sep (groups : List Nat) (first : Nat) (count : Nat) :
    ∀ i, first < i →
      Ipv6Address.printGroups groups first count i = sepTexts (hexTexts groups i count) := by
  induction count with
  | zero => intro i _; rfl
  | succ n ih =>
    intro i hi
    have hne : ¬ i = first := by omega
    simp only [Ipv6Address.printGroups, hne, if_false, hexTexts, List.range'_succ,
      List.map_cons, sepTexts]
    rw [ih (i + 1) (by omega)]
    simp [hexTexts]

/-- A loop of `printGroups` writes its groups with colons between them. -/
theorem Ipv6Address.printGroups_join (groups : List Nat) (first count : Nat) :
    Ipv6Address.printGroups groups first count first
      = joinTexts (hexTexts groups first count) := by
  cases count with
  | zero => rfl
  | succ n =>
    simp only [Ipv6Address.printGroups, if_true, hexTexts, List.range'_succ, List.map_cons,
      joinTexts]
    rw [Ipv6Address.printGroups_sep groups first n (first + 1) (by omega)]
    simp [hexTexts]

/-- The printed texts of 16-bit groups are group texts with the values of the
groups. -/
theorem areGroupTexts_hexTexts (groups : List Nat) (hg : ∀ k, groups.getD k 0 ≤ 0xffff)
    (count : Nat) : ∀ i, AreGroupTexts (hexTexts groups i count) (groupVals groups i count) := by
  induction count with
  | zero => intro i; simp [hexTexts, groupVals, AreGroupTexts]
  | succ n ih =>
    intro i
    simp only [hexTexts, groupVals, List.range'_succ, List.map_cons, AreGroupTexts]
    exact ⟨isGroupText_toHex _ (hg i), ih (i + 1)⟩

/-- The number of the printed texts. -/
theorem length_hexTexts (groups : List Nat) (i count : Nat) :
    (hexTexts groups i count).length = count := by
  simp [hexTexts]

/-- Element `j` of a run of groups. -/
theorem getD_groupVals (groups : List Nat) (i count j : Nat) (hj : j < count) :
    (groupVals groups i count).getD j 0 = groups.getD (i + j) 0 := by
  simp [groupVals, List.getD_eq_getElem?_getD, List.getElem?_map, List.getElem?_range', hj]

/-- The merge loop of `doTryParse` restores the groups when the groups left
out between the two runs are zero. -/
theorem Ipv6Address.mergeGroups_groupVals (groups : List Nat) (s e : Nat) (hse : s ≤ e)
    (he : e ≤ 8) (hz : ∀ k : Nat, s ≤ k → k < e → groups.getD k 0 = 0) :
    Ipv6Address.mergeGroups (groupVals groups 0 s) (groupVals groups e (8 - e))
      = groupVals groups 0 8 := by
  have hl1 : (groupVals groups 0 s).length = s := by simp [groupVals]
  have hl2 : (groupVals groups e (8 - e)).length = 8 - e := by simp [groupVals]
  have hsplit : groupVals groups 0 8 = groupVals groups 0 s ++ groupVals groups s (8 - s) := by
    unfold groupVals
    rw [← List.map_append]
    congr 1
    have := List.range'_append_1 0 s (8 - s)
    rw [Nat.zero_add] at this
    rw [this]
    congr 1
    omega
  unfold Ipv6Address.mergeGroups
  rw [hsplit, hl1, hl2]
  congr 1
  unfold groupVals
  apply List.map_congr_left
  intro i hi
  rw [List.mem_range'_1] at hi
  simp only
  by_cases hlt : i < e
  · have : ((i : Int) - 8 + ((8 - e : Nat) : Int)) < 0 := by omega
    rw [if_pos this]
    exact (hz i hi.1 hlt).symm
  · have hneg : ¬ ((i : Int) - 8 + ((8 - e : Nat) : Int)) < 0 := by omega
    rw [if_neg hneg]
    have hj : ((i : Int) - 8 + ((8 - e : Nat) : Int)).toNat = i - e := by omega
    rw [hj]
    have := getD_groupVals groups e (8 - e) (i - e) (by omega)
    unfold groupVals at this
    rw [this]
    congr 1
    omega

/-- The halves of a 32-bit word recombine to it. -/
theorem halves_recombine (d : Nat) (hd : d < 2 ^ 32) :
    ((((d >>> 16) % 2 ^ 16) <<< 16) + (d &&& 0xffff) % 2 ^ 16) % 2 ^ 32 = d := by
  have e : (0xffff : Nat) = 2 ^ 16 - 1 := by norm_num
  rw [e, Nat.and_pow_two_sub_one_eq_mod, Nat.shiftRight_eq_div_pow, Nat.shiftLeft_eq]
  omega

/-- The groups of an address of 32-bit words give the address back. -/
theorem Ipv6Address.ofGroups_toGroups (a : Ipv6Address) (ha : a.InRange) :
    Ipv6Address.ofGroups (groupVals a.toGroups 0 8) = a := by
  obtain ⟨h0, h1, h2, h3⟩ := ha
  have hv : groupVals a.toGroups 0 8 = a.toGroups := rfl
  rw [hv]
  cases a
  simp only [Ipv6Address.ofGroups, Ipv6Address.toGroups, List.getD_cons_zero,
    List.getD_cons_succ, Ipv6Address.mk.injEq]
  exact ⟨halves_recombine _ h0, halves_recombine _ h1, halves_recombine _ h2,
    halves_recombine _ h3⟩

/-- Every group of an address is a 16-bit value. -/
theorem Ipv6Address.toGroups_le (a : Ipv6Address) (k : Nat) : a.toGroups.getD k 0 ≤ 0xffff := by
  unfold Ipv6Address.toGroups
  rcases k with _ | _ | _ | _ | _ | _ | _ | _ | k <;> simp <;> omega

/-- An address of which all groups are zero is unspecified. -/
theorem Ipv6Address.isUnspecified_of_groups (a : Ipv6Address) (ha : a.InRange)
    (hz : ∀ k : Nat, k < 8 → a.toGroups.getD k 0 = 0) : a.isUnspecified = true := by
  have hr := Ipv6Address.ofGroups_toGroups a ha
  have hv : groupVals a.toGroups 0 8 = [0, 0, 0, 0, 0, 0, 0, 0] := by
    have e : groupVals a.toGroups 0 8
        = [a.toGroups.getD 0 0, a.toGroups.getD 1 0, a.toGroups.getD 2 0, a.toGroups.getD 3 0,
           a.toGroups.getD 4 0, a.toGroups.getD 5 0, a.toGroups.getD 6 0,
           a.toGroups.getD 7 0] := rfl
    rw [e, hz 0 (by norm_num), hz 1 (by norm_num), hz 2 (by norm_num), hz 3 (by norm_num),
      hz 4 (by norm_num), hz 5 (by norm_num), hz 6 (by norm_num), hz 7 (by norm_num)]
  rw [hv] at hr
  rw [← hr]
  decide

/-- `tryParse` returns what `doTryParse` found when the whole text was read. -/
theorem Ipv6Address.tryParse_of_doTryParse (b a : Ipv6Address) (text : List Char)
    (h : b.doTryParse text = (true, a, [])) : b.tryParse (some text) = (true, a) := by
  simp [Ipv6Address.tryParse, h]

/-- The text that `str` builds for the bounds `s` and `e` of the gap. -/
theorem Ipv6Address.str_eq (a : Ipv6Address) (hu : a.isUnspecified = false) (s e : Nat)
    (hgap : Ipv6Address.findGap a.toGroups = ((s : Int), (e : Int))) :
    a.str = if s = 0 ∧ e = 8 then [':', ':', '0']
      else joinTexts (hexTexts a.toGroups 0 s) ++ (if s ≠ e then [':', ':'] else [])
        ++ joinTexts (hexTexts a.toGroups e (8 - e)) := by
  unfold Ipv6Address.str
  simp only [hu, Bool.false_eq_true, if_false, hgap, Int.toNat_ofNat]
  rw [Ipv6Address.printGroups_join, Ipv6Address.printGroups_join]
  have c1 : ((s : Int) = 0 ∧ (e : Int) = 8) ↔ (s = 0 ∧ e = 8) := by omega
  have c2 : ((s : Int) ≠ (e : Int)) ↔ (s ≠ e) := by omega
  simp only [c1, c2]

/-- C12: for every address `a` of 32-bit words, the all-zero address
included, `tryParse` applied to the text `a.str()` returns true and leaves
the four words of `a` in the address it was called on, whatever that address
held before. -/
theorem Ipv6Address.tryParse_str (a b : Ipv6Address) (ha : a.InRange) :
    b.tryParse (some a.str) = (true, a) := by
  by_cases hu : a.isUnspecified = true
  · have hz : a = ⟨0, 0, 0, 0⟩ := by
      unfold Ipv6Address.isUnspecified at hu
      simp only [beq_iff_eq, or_eq_zero_iff_both] at hu
      obtain ⟨⟨⟨h0, h1⟩, h2⟩, h3⟩ := hu
      cases a
      simp_all
    subst hz
    apply Ipv6Address.tryParse_of_doTryParse
    simp [Ipv6Address.str, Ipv6Address.isUnspecified, Ipv6Address.doTryParse, unspecText]
  · have hu : a.isUnspecified = false := by simpa using hu
    obtain ⟨s, e, hgap, hcase⟩ := Ipv6Address.findGap_spec a.toGroups
    have hg := Ipv6Address.toGroups_le a
    apply Ipv6Address.tryParse_of_doTryParse
    rw [Ipv6Address.str_eq a hu s e hgap]
    rcases hcase with ⟨rfl, rfl⟩ | ⟨hlt, he8, hzero⟩
    · have h1 := Ipv6Address.doTryParse_eight b (hexTexts a.toGroups 0 8)
        (groupVals a.toGroups 0 8) (areGroupTexts_hexTexts a.toGroups hg 8 0)
        (length_hexTexts _ _ _)
      rw [Ipv6Address.ofGroups_toGroups a ha] at h1
      have e0 : hexTexts a.toGroups 0 0 = [] := rfl
      simpa [e0, joinTexts] using h1
    · by_cases h08 : s = 0 ∧ e = 8
      · obtain ⟨rfl, rfl⟩ := h08
        have := Ipv6Address.isUnspecified_of_groups a ha (fun k hk => hzero k (by omega) hk)
        rw [hu] at this
        cases this
      · rw [if_neg h08, if_pos (by omega)]
        have h1 := Ipv6Address.doTryParse_gap b (hexTexts a.toGroups 0 s)
          (hexTexts a.toGroups e (8 - e)) (groupVals a.toGroups 0 s)
          (groupVals a.toGroups e (8 - e)) (areGroupTexts_hexTexts a.toGroups hg s 0)
          (areGroupTexts_hexTexts a.toGroups hg (8 - e) e)
          (by rw [length_hexTexts, length_hexTexts]; omega)
        rw [Ipv6Address.mergeGroups_groupVals a.toGroups s e (by omega) he8 hzero,
          Ipv6Address.ofGroups_toGroups a ha] at h1
        simpa using h1

/-- Witness for C12: `2001:db8::1` is printed as such and read back, into an
address that held other words. -/
theorem Ipv6Address.tryParse_str_witness :
    (Ipv6Address.mk 0x20010db8 0 0 1).InRange ∧
    (Ipv6Address.mk 0x20010db8 0 0 1).str = "2001:db8::1".toList ∧
    (Ipv6Address.mk 9 9 9 9).tryParse (some (Ipv6Address.mk 0x20010db8 0 0 1).str)
      = (true, Ipv6Address.mk 0x20010db8 0 0 1) :=
  ⟨by decide, by decide,
   Ipv6Address.tryParse_str (Ipv6Address.mk 0x20010db8 0 0 1) (Ipv6Address.mk 9 9 9 9)
    (by decide)⟩

/-! ## The prefix length after the slash -/

/-- C19, the code at two inputs: after `::1/` the number 4294967296, which is
2^32, is accepted with prefix length 0, and the text `-4294967232` is accepted
with prefix length 64; the number 129 is rejected and 64 is accepted. -/
theorem Ipv6Address.tryParseAddrWithPrefix_wraps :
    Ipv6Address.tryParseAddrWithPrefix ⟨0, 0, 0, 0⟩ (some "::1/4294967296".toList) (-1)
      = (true, ⟨0, 0, 0, 1⟩, 0) ∧
    Ipv6Address.tryParseAddrWithPrefix ⟨0, 0, 0, 0⟩ (some "::1/-4294967232".toList) (-1)
      = (true, ⟨0, 0, 0, 1⟩, 64) ∧
    Ipv6Address.tryParseAddrWithPrefix ⟨0, 0, 0, 0⟩ (some "::1/129".toList) (-1)
      = (false, ⟨0, 0, 0, 1⟩, 129) ∧
    Ipv6Address.tryParseAddrWithPrefix ⟨0, 0, 0, 0⟩ (some "::1/64".toList) (-1)
      = (true, ⟨0, 0, 0, 1⟩, 64) := by
  decide

/-! ## The shape of the accepted texts -/

/-- The loop of `parseGroups`, entered after a colon with at least one group
stored, and ended at the end of the string or at a double colon, has read
group texts, each with a colon in front. -/
theorem parseGroupsLoop_inv (fuel : Nat) :
    ∀ (s : List Char) (acc gs : List Nat) (rest : List Char),
      acc ≠ [] → acc.length < 8 → acc.length + fuel = 8 →
      parseGroupsLoop fuel s acc = (gs, rest) →
      (rest = [] ∨ ∃ r, rest = ':' :: ':' :: r) →
      ∃ ts vs, AreGroupTexts ts vs ∧ gs = acc ++ vs ∧ ':' :: s = sepTexts ts ++ rest := by
  induction fuel with
  | zero => intro s acc gs rest _ h8 hf; omega
  | succ f ih =>
    intro s acc gs rest hacc h8 hf h hrest
    have hstop : IsStop rest := by
      rcases hrest with rfl | ⟨r, rfl⟩
      · exact Or.inl rfl
      · exact Or.inr rfl
    have h0 : acc.length ≠ 0 := fun h => hacc (List.length_eq_zero.mp h)
    rw [parseGroupsLoop_succ] at h
    by_cases h1 : (strtoul s 16).2 = s
    · rw [if_pos h1] at h
      simp only [h0, ne_eq, not_false_eq_true, if_true, Prod.mk.injEq] at h
      exact ⟨[], [], by simp [AreGroupTexts], by simp [h.1], by simp [sepTexts, h.2]⟩
    · rw [if_neg h1] at h
      by_cases h2 : (strtoul s 16).1 > 0xffff
      · rw [if_pos h2] at h
        simp only [Prod.mk.injEq] at h
        rw [← h.2] at hstop
        exact absurd (congrArg Prod.snd (strtoul_stop s hstop)) h1
      · rw [if_neg h2] at h
        obtain ⟨t, htne, hst, hreplay⟩ :=
          strtoul_token s (strtoul s 16).1 (strtoul s 16).2 rfl h1
        have htext : IsGroupText t (strtoul s 16).1 :=
          ⟨htne, by simpa using hreplay [] (Or.inl rfl), Nat.le_of_not_lt h2⟩
        by_cases h3 : (strtoul s 16).2.head? ≠ some ':' ∨
            (acc ++ [(strtoul s 16).1]).length = 8
        · rw [if_pos h3] at h
          simp only [Prod.mk.injEq] at h
          refine ⟨[t], [(strtoul s 16).1], by simp [AreGroupTexts, htext], h.1.symm, ?_⟩
          rw [← h.2]
          conv_lhs => rw [hst]
          simp [sepTexts]
        · rw [if_neg h3] at h
          have h3a : (strtoul s 16).2.head? = some ':' := by
            by_contra hc
            exact h3 (Or.inl hc)
          have h3b : ¬ (acc ++ [(strtoul s 16).1]).length = 8 := fun hc => h3 (Or.inr hc)
          have hlen : (acc ++ [(strtoul s 16).1]).length = acc.length + 1 := by simp
          obtain ⟨ts, vs, hts, hgs, hsep⟩ := ih _ _ gs rest (by simp) (by omega) (by omega) h
            hrest
          have he : (strtoul s 16).2 = ':' :: (strtoul s 16).2.tail := by
            cases hl : (strtoul s 16).2 with
            | nil => rw [hl] at h3a; simp at h3a
            | cons c cs =>
              rw [hl] at h3a
              simp only [List.head?_cons, Option.some.injEq] at h3a
              rw [h3a]
              rfl
          refine ⟨t :: ts, (strtoul s 16).1 :: vs, by simp [AreGroupTexts, htext, hts],
            by simp [hgs], ?_⟩
          conv_lhs => rw [hst, he, hsep]
          simp [sepTexts]

/-- An end of `parseGroups` at the end of the string or at a double colon: the
text before it is a sequence of colon-separated group texts with the values
that were stored. -/
theorem parseGroups_inv (s : List Char) (gs : List Nat) (rest : List Char)
    (h : parseGroups s = (gs, rest)) (hrest : rest = [] ∨ ∃ r, rest = ':' :: ':' :: r) :
    ∃ ts, AreGroupTexts ts gs ∧ s = joinTexts ts ++ rest := by
  have hstop : IsStop rest := by
    rcases hrest with rfl | ⟨r, rfl⟩
    · exact Or.inl rfl
    · exact Or.inr rfl
  unfold parseGroups at h
  rw [parseGroupsLoop_succ] at h
  by_cases h1 : (strtoul s 16).2 = s
  · rw [if_pos h1] at h
    simp only [List.length_nil, ne_eq, not_true_eq_false, if_false, Prod.mk.injEq] at h
    exact ⟨[], by simp [AreGroupTexts, ← h.1], by simp [joinTexts, h.2]⟩
  · rw [if_neg h1] at h
    by_cases h2 : (strtoul s 16).1 > 0xffff
    · rw [if_pos h2] at h
      simp only [Prod.mk.injEq] at h
      rw [← h.2] at hstop
      exact absurd (congrArg Prod.snd (strtoul_stop s hstop)) h1
    · rw [if_neg h2] at h
      obtain ⟨t, htne, hst, hreplay⟩ :=
          strtoul_token s (strtoul s 16).1 (strtoul s 16).2 rfl h1
      have htext : IsGroupText t (strtoul s 16).1 :=
        ⟨htne, by simpa using hreplay [] (Or.inl rfl), Nat.le_of_not_lt h2⟩
      by_cases h3 : (strtoul s 16).2.head? ≠ some ':' ∨
          ([] ++ [(strtoul s 16).1]).length = 8
      · rw [if_pos h3] at h
        simp only [List.nil_append, Prod.mk.injEq] at h
        refine ⟨[t], by simp [AreGroupTexts, htext, ← h.1], ?_⟩
        rw [← h.2]
        conv_lhs => rw [hst]
        simp [joinTexts, sepTexts]
      · rw [if_neg h3] at h
        have h3a : (strtoul s 16).2.head? = some ':' := by
          by_contra hc
          exact h3 (Or.inl hc)
        obtain ⟨ts, vs, hts, hgs, hsep⟩ := parseGroupsLoop_inv 7 _ _ gs rest (by simp)
          (by simp) (by simp) h hrest
        have he : (strtoul s 16).2 = ':' :: (strtoul s 16).2.tail := by
          cases hl : (strtoul s 16).2 with
          | nil => rw [hl] at h3a; simp at h3a
          | cons c cs =>
            rw [hl] at h3a
            simp only [List.head?_cons, Option.some.injEq] at h3a
            rw [h3a]
            rfl
        refine ⟨t :: ts, by simp [AreGroupTexts, htext, hts, hgs], ?_⟩
        conv_lhs => rw [hst, he, hsep]
        simp [joinTexts]

/-! ## Hexadecimal groups -/

/-- A hexadecimal digit or a colon is no white space, no sign and no `x`. -/
theorem plainChar_spec (c : Char) (h : isDigitOf 16 c = true ∨ c = ':') :
    isspace c = false ∧ c ≠ '-' ∧ c ≠ '+' ∧ c ≠ 'x' ∧ c ≠ 'X' := by
  rcases h with h | rfl
  · refine ⟨?_, ?_, ?_, ?_, ?_⟩
    · have hr : (48 ≤ c.toNat ∧ c.toNat ≤ 57) ∨ (97 ≤ c.toNat ∧ c.toNat ≤ 122) ∨
          (65 ≤ c.toNat ∧ c.toNat ≤ 90) := by
        unfold isDigitOf digitValue at h
        by_cases h1 : 48 ≤ c.toNat ∧ c.toNat ≤ 57
        · exact Or.inl h1
        · by_cases h2 : 97 ≤ c.toNat ∧ c.toNat ≤ 122
          · exact Or.inr (Or.inl h2)
          · by_cases h3 : 65 ≤ c.toNat ∧ c.toNat ≤ 90
            · exact Or.inr (Or.inr h3)
            · rw [if_neg h1, if_neg h2, if_neg h3] at h
              cases h
      unfold isspace
      have n1 : ¬ c.toNat = 32 := by omega
      have n2 : ¬ (9 ≤ c.toNat ∧ c.toNat ≤ 13) := by omega
      simp only [Bool.or_eq_false_iff, decide_eq_false_iff_not, Bool.and_eq_false_imp,
        decide_eq_true_eq]
      exact ⟨n1, fun a b => n2 ⟨a, b⟩⟩
    · intro e
      rw [e] at h
      revert h
      decide
    · intro e
      rw [e] at h
      revert h
      decide
    · intro e
      rw [e] at h
      revert h
      decide
    · intro e
      rw [e] at h
      revert h
      decide
  · decide

/-- On a text that starts with hexadecimal digits or colons `strtoul` skips
nothing. -/
theorem strtoulSubject_plain (c : Char) (cs : List Char)
    (h : ∀ x ∈ c :: cs, isDigitOf 16 x = true ∨ x = ':') :
    strtoulSubject (c :: cs) 16 = (false, c :: cs) := by
  obtain ⟨hsp, hm, hp, -, -⟩ := plainChar_spec c (h c (List.mem_cons_self _ _))
  have h1 : (c :: cs).dropWhile isspace = c :: cs := by
    rw [List.dropWhile_cons_of_neg]
    simp [hsp]
  have h2 : strtoulSign (c :: cs) = (false, c :: cs) := by
    simp [strtoulSign, hm, hp]
  have h3 : strtoulHexPrefix 16 (c :: cs) = c :: cs := by
    cases cs with
    | nil => rfl
    | cons x cs1 =>
      cases cs1 with
      | nil => rfl
      | cons y t =>
        obtain ⟨-, -, -, hx, hX⟩ := plainChar_spec x (h x (by simp))
        rw [strtoulHexPrefix_cons3, if_neg]
        rintro ⟨-, hxx | hxx, -⟩
        · exact hx hxx
        · exact hX hxx
  rw [strtoulSubject_eq, h1, h2]
  simp only [h3]

/-- The digit loop of `strtoul` on hexadecimal digits only reads all of them. -/
theorem strtoulDigits_all (t : List Char) :
    ∀ acc : Nat, (∀ c ∈ t, isDigitOf 16 c = true) →
      strtoulDigits 16 t acc
        = (t.foldl (fun a c => a * 16 + (digitValue c).getD 0) acc, []) := by
  induction t with
  | nil => intro acc _; rfl
  | cons c cs ih =>
    intro acc h
    have hc := h c (List.mem_cons_self _ _)
    simp only [strtoulDigits, hc, if_true, List.foldl_cons]
    exact ih _ (fun x hx => h x (List.mem_cons_of_mem _ hx))

/-- A hexadecimal group is a text that `parseGroups` takes for a group, with
the same value. -/
theorem IsHexGroup.isGroupText (t : List Char) (v : Nat) (h : IsHexGroup t v) :
    IsGroupText t v := by
  obtain ⟨hne, hdig, hval, hv⟩ := h
  obtain ⟨c, cs, rfl⟩ := List.exists_cons_of_ne_nil hne
  have hsubj := strtoulSubject_plain c cs (fun x hx => Or.inl (hdig x hx))
  have hd := strtoulDigits_all (c :: cs) 0 hdig
  refine ⟨hne, ?_, hv⟩
  rw [strtoul_eq, hsubj]
  simp only [hdig c (List.mem_cons_self _ _), if_true, hd]
  have e : List.foldl (fun a c => a * 16 + (digitValue c).getD 0) 0 (c :: cs) = v := hval
  rw [e]
  have : ¬ v > ULONG_MAX := by
    unfold ULONG_MAX
    omega
  simp [this]

/-- A text that `parseGroups` takes for a group and that holds hexadecimal
digits and colons only is a hexadecimal group, with the same value. -/
theorem IsGroupText.isHexGroup (t : List Char) (v : Nat) (h : IsGroupText t v)
    (hplain : ∀ x ∈ t, isDigitOf 16 x = true ∨ x = ':') : IsHexGroup t v := by
  obtain ⟨hne, hconv, hv⟩ := h
  obtain ⟨c, cs, rfl⟩ := List.exists_cons_of_ne_nil hne
  have hsubj := strtoulSubject_plain c cs hplain
  rw [strtoul_eq, hsubj] at hconv
  simp only at hconv
  by_cases hc : isDigitOf 16 c = true
  · simp only [hc, if_true, Bool.false_eq_true, if_false, Prod.mk.injEq] at hconv
    obtain ⟨hval, hend⟩ := hconv
    obtain ⟨ds, hds, hdig, -⟩ := strtoulDigits_split 16 (c :: cs) 0
      (strtoulDigits 16 (c :: cs) 0).1 (strtoulDigits 16 (c :: cs) 0).2 rfl
    rw [hend, List.append_nil] at hds
    rw [← hds] at hdig
    have hd := strtoulDigits_all (c :: cs) 0 hdig
    rw [hd] at hval
    simp only at hval
    have hle : ¬ hexValue (c :: cs) > ULONG_MAX := by
      intro hgt
      have e : List.foldl (fun a c => a * 16 + (digitValue c).getD 0) 0 (c :: cs)
          = hexValue (c :: cs) := rfl
      rw [e, if_pos hgt] at hval
      unfold ULONG_MAX at hval
      omega
    have e : List.foldl (fun a c => a * 16 + (digitValue c).getD 0) 0 (c :: cs)
        = hexValue (c :: cs) := rfl
    rw [e, if_neg hle] at hval
    exact ⟨hne, hdig, hval, hv⟩
  · simp only [hc, Bool.false_eq_true, if_false, Prod.mk.injEq] at hconv
    exact absurd hconv.2 hne

/-- Hexadecimal groups are texts that `parseGroups` takes for groups. -/
theorem AreHexGroups.areGroupTexts (ts : List (List Char)) :
    ∀ vs : List Nat, AreHexGroups ts vs → AreGroupTexts ts vs := by
  induction ts with
  | nil =>
    intro vs h
    cases vs with
    | nil => trivial
    | cons v vs => exact absurd h (by simp [AreHexGroups])
  | cons t ts ih =>
    intro vs h
    cases vs with
    | nil => exact absurd h (by simp [AreHexGroups])
    | cons v vs =>
      have h1 : IsHexGroup t v ∧ AreHexGroups ts vs := by simpa [AreHexGroups] using h
      exact ⟨IsHexGroup.isGroupText t v h1.1, ih vs h1.2⟩

/-- Group texts made of hexadecimal digits and colons are hexadecimal groups. -/
theorem AreGroupTexts.areHexGroups (ts : List (List Char)) :
    ∀ vs : List Nat, AreGroupTexts ts vs →
      (∀ t ∈ ts, ∀ x ∈ t, isDigitOf 16 x = true ∨ x = ':') → AreHexGroups ts vs := by
  induction ts with
  | nil =>
    intro vs h _
    cases vs with
    | nil => trivial
    | cons v vs => exact absurd h (by simp [AreGroupTexts])
  | cons t ts ih =>
    intro vs h hp
    cases vs with
    | nil => exact absurd h (by simp [AreGroupTexts])
    | cons v vs =>
      have h1 : IsGroupText t v ∧ AreGroupTexts ts vs := by simpa [AreGroupTexts] using h
      exact ⟨IsGroupText.isHexGroup t v h1.1 (hp t (List.mem_cons_self _ _)),
        ih vs h1.2 (fun u hu => hp u (List.mem_cons_of_mem _ hu))⟩

/-- The values of hexadecimal groups are 16-bit values. -/
theorem AreHexGroups.le (ts : List (List Char)) :
    ∀ vs : List Nat, AreHexGroups ts vs → ∀ v ∈ vs, v ≤ 0xffff := by
  induction ts with
  | nil =>
    intro vs h v hv
    cases vs with
    | nil => simp at hv
    | cons w vs => exact absurd h (by simp [AreHexGroups])
  | cons t ts ih =>
    intro vs h v hv
    cases vs with
    | nil => simp at hv
    | cons w vs =>
      have h1 : IsHexGroup t w ∧ AreHexGroups ts vs := by simpa [AreHexGroups] using h
      rcases List.mem_cons.mp hv with rfl | hv
      · exact h1.1.2.2.2
      · exact ih vs h1.2 v hv

/-- A character of one of the texts is a character of their sequence. -/
theorem mem_sepTexts (ts : List (List Char)) :
    ∀ t ∈ ts, ∀ x ∈ t, x ∈ sepTexts ts := by
  induction ts with
  | nil => intro t ht; simp at ht
  | cons u us ih =>
    intro t ht x hx
    simp only [sepTexts, List.mem_cons, List.mem_append]
    rcases List.mem_cons.mp ht with rfl | ht
    · exact Or.inl (Or.inr hx)
    · exact Or.inr (ih t ht x hx)

/-- A character of one of the texts is a character of their colon-separated
sequence. -/
theorem mem_joinTexts (ts : List (List Char)) (t : List Char) (ht : t ∈ ts) (x : Char)
    (hx : x ∈ t) : x ∈ joinTexts ts := by
  cases ts with
  | nil => simp at ht
  | cons u us =>
    simp only [joinTexts, List.mem_append]
    rcases List.mem_cons.mp ht with rfl | ht
    · exact Or.inl hx
    · exact Or.inr (mem_sepTexts us t ht x hx)

/-- A function that is 0 on a run of indices maps the run to zeros. -/
theorem map_range'_zero (f : Nat → Nat) (n : Nat) :
    ∀ s : Nat, (∀ i, s ≤ i → i < s + n → f i = 0) →
      (List.range' s n).map f = List.replicate n 0 := by
  induction n with
  | zero => intro s _; rfl
  | succ n ih =>
    intro s h
    rw [List.range'_succ, List.map_cons, List.replicate_succ, h s (le_refl _) (by omega),
      ih (s + 1) (fun i h1 h2 => h i (by omega) (by omega))]

/-- Reading a list element by element over a run of indices gives the list. -/
theorem map_range'_getD (q : List Nat) :
    ∀ s : Nat, (List.range' s q.length).map (fun i => q.getD (i - s) 0) = q := by
  induction q with
  | nil => intro s; rfl
  | cons x xs ih =>
    intro s
    rw [List.length_cons, List.range'_succ, List.map_cons]
    have h0 : (x :: xs).getD (s - s) 0 = x := by simp
    rw [h0]
    congr 1
    refine Eq.trans (List.map_congr_left ?_) (ih (s + 1))
    intro i hi
    rw [List.mem_range'_1] at hi
    have e : i - s = (i - (s + 1)) + 1 := by omega
    rw [e, List.getD_cons_succ]

/-- The merge loop of `doTryParse` puts as many zero groups between the two
runs of groups as are missing from eight. -/
theorem Ipv6Address.mergeGroups_eq (pv qv : List Nat) (h : pv.length + qv.length ≤ 8) :
    Ipv6Address.mergeGroups pv qv
      = pv ++ List.replicate (8 - (pv.length + qv.length)) 0 ++ qv := by
  unfold Ipv6Address.mergeGroups
  rw [List.append_assoc]
  congr 1
  have hsplit : List.range' pv.length (8 - pv.length)
      = List.range' pv.length (8 - (pv.length + qv.length))
        ++ List.range' (8 - qv.length) qv.length := by
    have := List.range'_append_1 pv.length (8 - (pv.length + qv.length)) qv.length
    have e1 : pv.length + (8 - (pv.length + qv.length)) = 8 - qv.length := by omega
    have e2 : qv.length + (8 - (pv.length + qv.length)) = 8 - pv.length := by omega
    rw [e1, e2] at this
    exact this.symm
  rw [hsplit, List.map_append]
  congr 1
  · apply map_range'_zero
    intro i h1 h2
    have : ((i : Int) - 8 + (qv.length : Int)) < 0 := by omega
    simp only
    rw [if_pos this]
  · conv_rhs => rw [← map_range'_getD qv (8 - qv.length)]
    apply List.map_congr_left
    intro i hi
    rw [List.mem_range'_1] at hi
    have hneg : ¬ ((i : Int) - 8 + (qv.length : Int)) < 0 := by omega
    have hj : ((i : Int) - 8 + (qv.length : Int)).toNat = i - (8 - qv.length) := by omega
    simp only
    rw [if_neg hneg, hj]

/-- The last loop of `doTryParse` stores eight 16-bit groups as four 32-bit
words that, read as one number, are the groups read as one number. -/
theorem Ipv6Address.ofGroups_value (gs : List Nat) (hl : gs.length = 8)
    (hb : ∀ g ∈ gs, g ≤ 0xffff) :
    (Ipv6Address.ofGroups gs).InRange ∧ (Ipv6Address.ofGroups gs).toNat = groupsValue gs := by
  match gs, hl with
  | [g0, g1, g2, g3, g4, g5, g6, g7], _ =>
    have b0 := hb g0 (by simp)
    have b1 := hb g1 (by simp)
    have b2 := hb g2 (by simp)
    have b3 := hb g3 (by simp)
    have b4 := hb g4 (by simp)
    have b5 := hb g5 (by simp)
    have b6 := hb g6 (by simp)
    have b7 := hb g7 (by simp)
    simp only [Ipv6Address.ofGroups, Ipv6Address.InRange, Ipv6Address.toNat, groupsValue,
      List.getD_cons_zero, List.getD_cons_succ, List.foldl_cons, List.foldl_nil,
      Nat.shiftLeft_eq]
    refine ⟨⟨?_, ?_, ?_, ?_⟩, ?_⟩ <;> omega

/-- `tryParse` accepts exactly when `doTryParse` accepts and has read the whole
text. -/
theorem Ipv6Address.tryParse_true_iff (b a : Ipv6Address) (text : List Char) :
    b.tryParse (some text) = (true, a) ↔ b.doTryParse text = (true, a, []) := by
  simp only [Ipv6Address.tryParse]
  generalize b.doTryParse text = r
  obtain ⟨ok, a1, rest⟩ := r
  cases ok
  · simp
  · cases rest with
    | nil => simp
    | cons c cs => simp

/-- Counterexample for C20: `tryParse` accepts `<unspec>`, which has neither
eight groups nor a double colon, and accepts `1:2:3:4::5:6:7:8`, in which
eight hexadecimal groups are written around the double colon. -/
theorem Ipv6Address.tryParse_shape_counterexample :
    Ipv6Address.tryParse ⟨0, 0, 0, 1⟩ (some "<unspec>".toList) = (true, ⟨0, 0, 0, 0⟩) ∧
    ':' ∉ "<unspec>".toList ∧
    Ipv6Address.tryParse ⟨0, 0, 0, 0⟩ (some "1:2:3:4::5:6:7:8".toList)
      = (true, ⟨0x00010002, 0x00030004, 0x00050006, 0x00070008⟩) ∧
    "1:2:3:4::5:6:7:8".toList
      = joinTexts ["1".toList, "2".toList, "3".toList, "4".toList] ++ "::".toList
          ++ joinTexts ["5".toList, "6".toList, "7".toList, "8".toList] ∧
    IsHexGroup "1".toList 1 ∧ IsHexGroup "2".toList 2 ∧ IsHexGroup "3".toList 3 ∧
    IsHexGroup "4".toList 4 ∧ IsHexGroup "5".toList 5 ∧ IsHexGroup "6".toList 6 ∧
    IsHexGroup "7".toList 7 ∧ IsHexGroup "8".toList 8 := by
  decide

/-- A text with a sign is no text of hexadecimal digits and colons;
`parseGroups` takes `-ffffffffffffffff` for the group 1, so that
`::-ffffffffffffffff` is read as `::1`. -/
theorem Ipv6Address.tryParse_signed_group :
    ¬ IsPlainText "::-ffffffffffffffff".toList ∧
    Ipv6Address.tryParse ⟨0, 0, 0, 0⟩ (some "::-ffffffffffffffff".toList)
      = (true, ⟨0, 0, 0, 1⟩) := by
  decide

/-- The text `<unspec>` is no text of hexadecimal digits and colons. -/
theorem not_isPlainText_unspecText : ¬ IsPlainText unspecText := by
  decide

/-- C20 (amended): a text of hexadecimal digits and colons that `tryParse`
accepts is exactly eight colon-separated hexadecimal groups, or is
hexadecimal groups, a double colon, and hexadecimal groups, with at most
eight groups written in all; the address then holds, as one 128-bit number,
the written groups with as many zero groups in place of the double colon as
are missing from eight.  The text `<unspec>` is accepted too and gives the
all-zero address.  A text with a double colon between at most eight
hexadecimal groups on either side, more than eight in all, is rejected and
the address is left as it was. -/
theorem Ipv6Address.tryParse_shape (b : Ipv6Address) (text : List Char) :
    (∀ a : Ipv6Address, IsPlainText text → b.tryParse (some text) = (true, a) →
      (∃ ts vs, AreHexGroups ts vs ∧ ts.length = 8 ∧ text = joinTexts ts ∧
        a.InRange ∧ a.toNat = groupsValue vs) ∨
      (∃ ps pv qs qv, AreHexGroups ps pv ∧ AreHexGroups qs qv ∧
        ps.length + qs.length ≤ 8 ∧ text = joinTexts ps ++ ':' :: ':' :: joinTexts qs ∧
        a.InRange ∧
        a.toNat
          = groupsValue (pv ++ List.replicate (8 - (ps.length + qs.length)) 0 ++ qv))) ∧
    b.tryParse (some unspecText) = (true, ⟨0, 0, 0, 0⟩) ∧
    (∀ ps pv qs qv, AreHexGroups ps pv → AreHexGroups qs qv →
      ps.length ≤ 8 → qs.length ≤ 8 → ps.length + qs.length > 8 →
      text = joinTexts ps ++ ':' :: ':' :: joinTexts qs →
      b.tryParse (some text) = (false, b)) := by
  refine ⟨?_, ?_, ?_⟩
  · intro a hplain h
    rw [Ipv6Address.tryParse_true_iff] at h
    unfold Ipv6Address.doTryParse at h
    have hun : text ≠ unspecText := by
      intro e
      rw [e] at hplain
      exact not_isPlainText_unspecText hplain
    rw [if_neg hun] at h
    cases hp : parseGroups text with
    | mk gs rest =>
      rw [hp] at h
      simp only at h
      split at h
      · rename_i addr2
        cases hq : parseGroups addr2 with
        | mk hs rest2 =>
          rw [hq] at h
          simp only at h
          by_cases hmany : gs.length + hs.length > 8
          · rw [if_pos hmany] at h
            simp at h
          · rw [if_neg hmany] at h
            simp only [Prod.mk.injEq, true_and] at h
            obtain ⟨ha, hr2⟩ := h
            subst hr2
            obtain ⟨ps, hps, htext⟩ := parseGroups_inv text gs _ hp (Or.inr ⟨_, rfl⟩)
            obtain ⟨qs, hqs, haddr⟩ := parseGroups_inv addr2 hs [] hq (Or.inl rfl)
            simp only [List.append_nil] at haddr
            have htext2 : text = joinTexts ps ++ ':' :: ':' :: joinTexts qs := by
              rw [htext, haddr]
            have hpl := AreGroupTexts.length_eq ps gs hps
            have hql := AreGroupTexts.length_eq qs hs hqs
            have hps2 : AreHexGroups ps gs := by
              apply AreGroupTexts.areHexGroups ps gs hps
              intro t ht x hx
              apply hplain x
              rw [htext2]
              exact List.mem_append_left _ (mem_joinTexts ps t ht x hx)
            have hqs2 : AreHexGroups qs hs := by
              apply AreGroupTexts.areHexGroups qs hs hqs
              intro t ht x hx
              apply hplain x
              rw [htext2]
              apply List.mem_append_right
              exact List.mem_cons_of_mem _ (List.mem_cons_of_mem _ (mem_joinTexts qs t ht x hx))
            have hle : gs.length + hs.length ≤ 8 := by omega
            have hmerge := Ipv6Address.mergeGroups_eq gs hs hle
            have hval := Ipv6Address.ofGroups_value
              (gs ++ List.replicate (8 - (gs.length + hs.length)) 0 ++ hs)
              (by simp only [List.length_append, List.length_replicate]; omega)
              (by
                intro g hg
                simp only [List.mem_append, List.mem_replicate] at hg
                rcases hg with (hg | hg) | hg
                · exact AreHexGroups.le ps gs hps2 g hg
                · rw [hg.2]
                  norm_num
                · exact AreHexGroups.le qs hs hqs2 g hg)
            rw [← hmerge, ha] at hval
            refine Or.inr ⟨ps, gs, qs, hs, hps2, hqs2, by omega, htext2, hval.1, ?_⟩
            rw [hval.2, hmerge, hpl, hql]
      · by_cases h8 : gs.length ≠ 8
        · rw [if_pos h8] at h
          simp at h
        · rw [if_neg h8] at h
          simp only [Prod.mk.injEq, true_and] at h
          obtain ⟨ha, hr⟩ := h
          subst hr
          obtain ⟨ts, hts, htext⟩ := parseGroups_inv text gs [] hp (Or.inl rfl)
          simp only [List.append_nil] at htext
          have hts2 : AreHexGroups ts gs := by
            apply AreGroupTexts.areHexGroups ts gs hts
            intro t ht x hx
            apply hplain x
            rw [htext]
            exact mem_joinTexts ts t ht x hx
          have hl : gs.length = 8 := by simpa using h8
          have hval := Ipv6Address.ofGroups_value gs hl (AreHexGroups.le ts gs hts2)
          rw [ha] at hval
          refine Or.inl ⟨ts, gs, hts2, ?_, htext, hval.1, hval.2⟩
          rw [AreGroupTexts.length_eq ts gs hts, hl]
  · simp [Ipv6Address.tryParse, Ipv6Address.doTryParse, unspecText]
  · intro ps pv qs qv hps hqs hp8 hq8 hsum htext
    have hps1 := AreHexGroups.areGroupTexts ps pv hps
    have hqs1 := AreHexGroups.areGroupTexts qs qv hqs
    have hp := parseGroups_joinTexts ps pv (':' :: ':' :: joinTexts qs) hps1 hp8
      (Or.inr ⟨_, rfl⟩)
    have hq := parseGroups_joinTexts qs qv [] hqs1 hq8 (Or.inl rfl)
    simp only [List.append_nil] at hq
    have hpl := AreGroupTexts.length_eq ps pv hps1
    have hql := AreGroupTexts.length_eq qs qv hqs1
    have hne : text ≠ unspecText := by
      apply ne_unspecText_of_colon
      rw [htext]
      simp
    have hmany : pv.length + qv.length > 8 := by omega
    have hd : b.doTryParse text = (false, b, []) := by
      unfold Ipv6Address.doTryParse
      rw [if_neg hne, htext, hp]
      simp only [hq]
      simp [hmany]
    simp [Ipv6Address.tryParse, hd]

/-- Witness for C20 (amended): `fe80::1` is a text of hexadecimal digits and
colons that is accepted, and is two hexadecimal groups around a double colon
that stands for six zero groups. -/
theorem Ipv6Address.tryParse_shape_witness :
    IsPlainText "fe80::1".toList ∧
    Ipv6Address.tryParse ⟨0, 0, 0, 0⟩ (some "fe80::1".toList) = (true, ⟨0xfe800000, 0, 0, 1⟩) ∧
    ((∃ ts vs, AreHexGroups ts vs ∧ ts.length = 8 ∧ "fe80::1".toList = joinTexts ts ∧
        (Ipv6Address.mk 0xfe800000 0 0 1).InRange ∧
        (Ipv6Address.mk 0xfe800000 0 0 1).toNat = groupsValue vs) ∨
      (∃ ps pv qs qv, AreHexGroups ps pv ∧ AreHexGroups qs qv ∧
        ps.length + qs.length ≤ 8 ∧
        "fe80::1".toList = joinTexts ps ++ ':' :: ':' :: joinTexts qs ∧
        (Ipv6Address.mk 0xfe800000 0 0 1).InRange ∧
        (Ipv6Address.mk 0xfe800000 0 0 1).toNat
          = groupsValue (pv ++ List.replicate (8 - (ps.length + qs.length)) 0 ++ qv))) :=
  ⟨by decide, by decide,
   (Ipv6Address.tryParse_shape ⟨0, 0, 0, 0⟩ "fe80::1".toList).1 ⟨0xfe800000, 0, 0, 1⟩
    (by decide) (by decide)⟩

end Inet
